import Mathlib

/-!
Verification development for the golearn decision-tree core
(`trees/id3.go`) and the random-forest wrapper (`ensemble/randomforest.go`).

The Go code is shallowly embedded:

* `base.Attribute` values are compared by identity in the source, so an
  attribute is modelled as a bare identity token (`Nat`).
* `base.Instances` (an external collaborator, not part of the sources under
  verification) is modelled from the spec as an attribute list, a class
  attribute and a list of rows; a row is a map from attributes to their
  canonical string values.
* Go maps are modelled as association lists; wherever the source *iterates*
  over a map (the majority-class loop, the unseen-value fallback loop in
  `Predict`) the iteration order is an explicit oracle parameter
  `ord : List String → List String` applied to the key list.  A run of the
  Go program corresponds to an oracle whose output is always a permutation
  of its input; theorems that need this carry the permutation hypothesis,
  and run-to-run nondeterminism is modelled by varying the oracle.
* `float64` accuracies are modelled as exact rationals; the two accuracies
  compared by `Prune` always share a denominator, so rounding cannot change
  the comparison for the list sizes involved.
* A `nil`-map dereference in `Predict` (possible when a rule node carries an
  empty, non-`nil` children map) is modelled by an `Option` result: `none`
  is the Go panic.
-/

/-- Identity token of a `base.Attribute`; the source compares attributes by
identity, never by name, so the name is irrelevant to the embedding. -/
abbrev Attr := Nat

/-- A data row: the canonical string value of each attribute
(`Attribute.GetStringFromSysVal` composed with `Instances.Get`). -/
abbrev Row := Attr → String

/-- Modelled from the spec: the external `base.Instances` contract (rows,
columns, a distinguished class attribute).  `attrs` lists every column,
including the class column, so `attrs.length` is `GetAttributeCount()`. -/
structure Instances where
  attrs : List Attr
  classAttr : Attr
  rows : List Row

/-- Distinct values of attribute `a` over `rows`, in first-encounter order. -/
def distinctVals (a : Attr) (rows : List Row) : List String :=
  rows.foldl (fun acc r => if (r a) ∈ acc then acc else acc ++ [r a]) []

/-- Modelled from the spec: `Instances.CountClassValues`, the class-value
histogram over the rows (label, count), one entry per distinct label. -/
def countClassValues (inst : Instances) : List (String × Nat) :=
  (distinctVals inst.classAttr inst.rows).map
    (fun v => (v, (inst.rows.filter (fun r => r inst.classAttr = v)).length))

/-- Modelled from the spec: `Instances.DecomposeOnAttributeValues`.  Partitions
the rows into groups keyed by the string value of `a` (values with zero rows
produce no group) and removes the decomposed attribute from each group's
column set, so each recursive call works on a strictly smaller attribute
space. -/
def decompose (inst : Instances) (a : Attr) : List (String × Instances) :=
  (distinctVals a inst.rows).map
    (fun v => (v, ⟨inst.attrs.erase a, inst.classAttr,
                   inst.rows.filter (fun r => r a = v)⟩))

/-- `NodeType` from the source. -/
inductive NodeType where
  | LeafNode
  | RuleNode
deriving DecidableEq, Repr

mutual
/-- `DecisionTreeNode` from the source.  Fields in source order:
`Type`, `Children`, `SplitAttr`, `ClassDist`, `Class`, `ClassAttr`.
`Children` is `none` for a `nil` map and `some` of an association list for a
non-`nil` map. -/
inductive DecisionTreeNode where
  | mk (typ : NodeType) (children : Option ChildList) (splitAttr : Option Attr)
       (classDist : List (String × Nat)) (classLabel : String) (classAttr : Attr)

/-- The contents of a `map[string]*DecisionTreeNode`: key/child pairs. -/
inductive ChildList where
  | nil
  | cons (key : String) (child : DecisionTreeNode) (rest : ChildList)
end

def DecisionTreeNode.typ : DecisionTreeNode → NodeType
  | .mk t _ _ _ _ _ => t

def DecisionTreeNode.children : DecisionTreeNode → Option ChildList
  | .mk _ c _ _ _ _ => c

def DecisionTreeNode.splitAttr : DecisionTreeNode → Option Attr
  | .mk _ _ s _ _ _ => s

def DecisionTreeNode.classDist : DecisionTreeNode → List (String × Nat)
  | .mk _ _ _ d _ _ => d

def DecisionTreeNode.classLabel : DecisionTreeNode → String
  | .mk _ _ _ _ c _ => c

def DecisionTreeNode.classAttr : DecisionTreeNode → Attr
  | .mk _ _ _ _ _ a => a

/-- Keys of a children map, in storage order. -/
def childKeys : ChildList → List String
  | .nil => []
  | .cons k _ rest => k :: childKeys rest

/-- Go map read `Children[k]` (with its `ok` flag as `Option`). -/
def childAt : ChildList → String → Option DecisionTreeNode
  | .nil, _ => none
  | .cons k c rest, t => if k = t then some c else childAt rest t

/-- Go map read `classes[i]` on the histogram (a present key always hits). -/
def histLookup : List (String × Nat) → String → Nat
  | [], _ => 0
  | (k, v) :: rest, i => if k = i then v else histLookup rest i

/-- The majority-class loop of `InferID3Tree` (lines 61-68): visit the keys in
iteration order, keep the first key that strictly improves the best count. -/
def majorityLoop (classes : List (String × Nat)) : List String → String × Nat → String × Nat
  | [], acc => acc
  | i :: rest, acc =>
      if histLookup classes i > acc.2 then majorityLoop classes rest (i, histLookup classes i)
      else majorityLoop classes rest acc

/-- `maxClass` as computed by `InferID3Tree` for a multi-class histogram,
given the map iteration order oracle `ord`. -/
def chooseMajority (ord : List String → List String) (classes : List (String × Nat)) : String :=
  (majorityLoop classes (ord (classes.map Prod.fst)) ("", 0)).1

/-- The single-class loop of `InferID3Tree` (lines 46-48): `maxClass` ends as
the last key in iteration order. -/
def lastKey (ord : List String → List String) (classes : List (String × Nat)) : String :=
  (ord (classes.map Prod.fst)).foldl (fun _ i => i) ""

/-- Go's `<` on `string`: byte-wise lexicographic order, written as a plain
recursion over the character lists so that it computes. -/
def charListLt : List Char → List Char → Bool
  | [], [] => false
  | [], _ :: _ => true
  | _ :: _, [] => false
  | c :: cs, d :: ds =>
      if c.toNat < d.toNat then true
      else if d.toNat < c.toNat then false
      else charListLt cs ds

def strLt (a b : String) : Bool := charListLt a.data b.data

/-- The unseen-value fallback loop of `Predict` (lines 209-215): set
`bestChild` to each key in turn, stopping after the first key greater than the
row's value (`c > classVar`); if none is greater the loop ends on the last
key. -/
def bestChildLoop (classVar : String) : List String → String → String
  | [], acc => acc
  | c :: rest, _ => if strLt classVar c then c else bestChildLoop classVar rest c

def toChildList : List (String × DecisionTreeNode) → ChildList
  | [] => .nil
  | (k, c) :: rest => .cons k c (toChildList rest)

/-- `InferID3Tree`, fuelled.  The fuel only bounds the recursion depth; every
recursive call removes the split attribute from the column set, so fuel
`attrs.length + 1` (as used by `InferID3Tree` below) never runs out.  The
`RuleGenerator` is the external split-selection capability; per its contract
(spec section 4.1/7) it returns an attribute of the given partition or a
"no useful split" sentinel, which the subtype encodes. -/
def inferGo (ord : List String → List String)
    (gen : (inst : Instances) → Option {a : Attr // a ∈ inst.attrs}) :
    Nat → Instances → DecisionTreeNode
  | 0, inst =>
      .mk .RuleNode none none (countClassValues inst)
        (chooseMajority ord (countClassValues inst)) inst.classAttr
  | fuel + 1, inst =>
      let classes := countClassValues inst
      if classes.length = 1 then
        .mk .LeafNode none none classes (lastKey ord classes) inst.classAttr
      else
        let maxClass := chooseMajority ord classes
        if inst.attrs.length = 2 then
          .mk .LeafNode none none classes maxClass inst.classAttr
        else
          match gen inst with
          | none => .mk .RuleNode none none classes maxClass inst.classAttr
          | some ⟨sa, _⟩ =>
              .mk .RuleNode
                (some (toChildList ((decompose inst sa).map
                  (fun p => (p.1, inferGo ord gen fuel p.2)))))
                (some sa) classes maxClass inst.classAttr

/-- `InferID3Tree` (lines 39-110). -/
def InferID3Tree (ord : List String → List String)
    (gen : (inst : Instances) → Option {a : Attr // a ∈ inst.attrs})
    (inst : Instances) : DecisionTreeNode :=
  inferGo ord gen (inst.attrs.length + 1) inst

mutual
/-- The per-row traversal loop of `Predict` (lines 193-219).  `none` models
the Go panic reached when the fallback key misses the children map (only
possible for an empty, non-`nil` map). -/
def predictRow (attrs : List Attr) (ord : List String → List String) (row : Row) :
    DecisionTreeNode → Option String
  | .mk _ none _ _ cls _ => some cls
  | .mk _ (some cl) sa _ cls _ =>
      match sa with
      | none => some cls
      | some a =>
          if a ∈ attrs then
            let v := row a
            if (childAt cl v).isSome then
              findPredict attrs ord row cl v
            else
              findPredict attrs ord row cl (bestChildLoop v (ord (childKeys cl)) "")
          else some cls

/-- Walks the children map to the target key and continues the traversal
there; `none` is the Go nil-pointer panic for a missing key. -/
def findPredict (attrs : List Attr) (ord : List String → List String) (row : Row) :
    ChildList → String → Option String
  | .nil, _ => none
  | .cons k c rest, t =>
      if k = t then predictRow attrs ord row c else findPredict attrs ord row rest t
end

/-- `Predict` (lines 188-222): one label per input row, in row order. -/
def Predict (ord : List String → List String) (d : DecisionTreeNode)
    (what : Instances) : List (Option String) :=
  what.rows.map (fun r => predictRow what.attrs ord r d)

/-- `computeAccuracy` composed with the external evaluator contract
(confusion matrix, then correct/total): the fraction of rows whose prediction
equals the row's class value. -/
def correctCount (predictions : List (Option String)) (inst : Instances) : Nat :=
  (predictions.zip inst.rows).countP (fun p => p.1 = some (p.2 inst.classAttr))

def computeAccuracy (predictions : List (Option String)) (inst : Instances) : ℚ :=
  (correctCount predictions inst : ℚ) / (inst.rows.length : ℚ)

/-- Generic association-list read, for the decompose result `sub[k]`. -/
def listLookup {α : Type} : List (String × α) → String → Option α
  | [], _ => none
  | (k, v) :: rest, t => if k = t then some v else listLookup rest t

mutual
/-- `Prune` (lines 155-185), written functionally: the returned node is the
in-place-mutated receiver.  The source compares the two accuracies
(`newAccuracy < baselineAccuracy`); both are correct/total fractions over the
same `using` rows, so the comparison is carried out on the correct counts —
the theorem `computeAccuracy_lt_iff_correctCount_lt` below proves the two
comparisons identical. -/
def Prune (ord : List String → List String) :
    DecisionTreeNode → Instances → DecisionTreeNode
  | .mk t none sa dist cls ca, _ => .mk t none sa dist cls ca
  | .mk t (some cl) sa dist cls ca, u =>
      match sa with
      | none => .mk t (some cl) none dist cls ca
      | some a =>
          let sub := decompose u a
          let cl1 := pruneChildren ord sub cl
          let d1 : DecisionTreeNode := .mk t (some cl1) (some a) dist cls ca
          let d2 : DecisionTreeNode := .mk t none (some a) dist cls ca
          if correctCount (Predict ord d2 u) u < correctCount (Predict ord d1 u) u
          then d1 else d2

/-- The recursive child-pruning loop of `Prune` (lines 165-170): children
whose key received no validation rows are left untouched. -/
def pruneChildren (ord : List String → List String)
    (sub : List (String × Instances)) : ChildList → ChildList
  | .nil => .nil
  | .cons k c rest =>
      match listLookup sub k with
      | none => .cons k c (pruneChildren ord sub rest)
      | some inst => .cons k (Prune ord c inst) (pruneChildren ord sub rest)
end

/-- `ID3DecisionTree` (lines 231-235); `PruneSplit` is the `float64` pruning
ratio, modelled as an exact rational. -/
structure ID3DecisionTree where
  Root : Option DecisionTreeNode
  PruneSplit : ℚ

/-- `NewID3DecisionTree` (lines 239-245). -/
def NewID3DecisionTree (p : ℚ) : ID3DecisionTree := ⟨none, p⟩

/-- `ID3DecisionTree.Fit` (lines 248-257).  The split-selection strategy and
the train/test splitter are external collaborators, passed as parameters:
`split on p` models `base.InstancesTrainTestSplit(on, p)`. -/
def ID3DecisionTree.Fit (ord : List String → List String)
    (gen : (inst : Instances) → Option {a : Attr // a ∈ inst.attrs})
    (split : Instances → ℚ → Instances × Instances)
    (t : ID3DecisionTree) (ds : Instances) : ID3DecisionTree :=
  if t.PruneSplit > 1 / 1000 then
    let pair := split ds t.PruneSplit
    { t with Root := some (Prune ord (InferID3Tree ord gen pair.1) pair.2) }
  else
    { t with Root := some (InferID3Tree ord gen ds) }

/-- `ID3DecisionTree.Predict` (lines 260-262). -/
def ID3DecisionTree.PredictTree (ord : List String → List String)
    (t : ID3DecisionTree) (what : Instances) : Option (List (Option String)) :=
  t.Root.map (fun r => Predict ord r what)

/-- Modelled from the spec: the external `meta.BaggedModel` aggregator's
visible state, a feature-subsample count and the registered member models. -/
structure BaggedModel where
  RandomFeatures : Nat
  models : List ID3DecisionTree

/-- Modelled from the spec: `BaggedModel.AddModel` registers one member. -/
def BaggedModel.AddModel (b : BaggedModel) (m : ID3DecisionTree) : BaggedModel :=
  { b with models := b.models ++ [m] }

/-- `RandomForest` (ensemble/randomforest.go lines 12-17). -/
structure RandomForest where
  ForestSize : Nat
  Features : Nat
  Model : Option BaggedModel

/-- `NewRandomForest` (lines 22-30). -/
def NewRandomForest (forestSize features : Nat) : RandomForest :=
  ⟨forestSize, features, none⟩

/-- `RandomForest.Fit` (lines 33-41).  The aggregator's training pass
(`meta.BaggedModel.Fit`, external: row bootstrapping plus feature
subsampling) is the parameter `aggFit`. -/
def RandomForest.Fit (aggFit : BaggedModel → Instances → BaggedModel)
    (f : RandomForest) (ds : Instances) : RandomForest :=
  let m0 : BaggedModel := ⟨f.Features, []⟩
  let m1 := (List.range f.ForestSize).foldl
    (fun b _ => b.AddModel (NewID3DecisionTree 0)) m0
  { f with Model := some (aggFit m1 ds) }

/-- `RandomForest.Predict` (lines 44-46): pure delegation to the aggregator's
majority-vote combination `aggPredict` (external); `none` is the Go panic on
an untrained forest. -/
def RandomForest.PredictForest
    (aggPredict : BaggedModel → Instances → List (Option String))
    (f : RandomForest) (w : Instances) : Option (List (Option String)) :=
  f.Model.map (fun m => aggPredict m w)

/-! ### Derived predicates used by the theorems -/

mutual
/-- `frameOK d d'`: the pruned node `d'` agrees with `d` on every field
except possibly `Children`; its children, when still attached, correspond
key-for-key to the original children and preserve their frames in turn. -/
def frameOK : DecisionTreeNode → DecisionTreeNode → Prop
  | .mk t c s dist cls ca, .mk t' c' s' dist' cls' ca' =>
      t' = t ∧ s' = s ∧ dist' = dist ∧ cls' = cls ∧ ca' = ca ∧ frameChildrenOpt c c'

/-- Children-map frames: pruning may only detach the whole map (`none`). -/
def frameChildrenOpt : Option ChildList → Option ChildList → Prop
  | _, none => True
  | none, some _ => False
  | some cl, some cl2 => frameChildren cl cl2

def frameChildren : ChildList → ChildList → Prop
  | .nil, .nil => True
  | .cons k c rest, .cons k2 c2 rest2 => k2 = k ∧ frameOK c c2 ∧ frameChildren rest rest2
  | .nil, .cons _ _ _ => False
  | .cons _ _ _, .nil => False
end

mutual
/-- Congruent routing (spec section 4.4): every row reaching a Rule node
carries a value that matches one of its children, and the node's split
attribute is present in the schema; recursively so for each child with the
rows routed to it.  This is the pre-condition under which validation rows
are "routed through the same attribute-value decompositions" as the
training rows that built the subtree. -/
def congruentB : DecisionTreeNode → List Attr → List Row → Bool
  | .mk _ none _ _ _ _, _, _ => true
  | .mk _ (some cl) sa _ _ _, attrs, rows =>
      match sa with
      | none => true
      | some a =>
          decide (a ∈ attrs) && rows.all (fun r => (childAt cl (r a)).isSome) &&
            congruentChildrenB cl (attrs.erase a) a rows

def congruentChildrenB : ChildList → List Attr → Attr → List Row → Bool
  | .nil, _, _, _ => true
  | .cons k c rest, attrs, a, rows =>
      congruentB c attrs (rows.filter (fun r => r a = k)) &&
        congruentChildrenB rest attrs a rows
end

/-- The number of validation rows of one decomposition group that the
matching child classifies correctly (`0` for a group with no matching
child). -/
def childScore (ord : List String → List String) (cl : ChildList)
    (p : String × Instances) : Nat :=
  match childAt cl p.1 with
  | some c => correctCount (Predict ord c p.2) p.2
  | none => 0

def wfNonEmpty : ChildList → Bool
  | .nil => false
  | .cons _ _ _ => true

mutual
/-- Every node with a non-`nil` children map has at least one child. -/
def wfChildren : DecisionTreeNode → Bool
  | .mk _ none _ _ _ _ => true
  | .mk _ (some cl) _ _ _ _ => wfNonEmpty cl && wfList cl

def wfList : ChildList → Bool
  | .nil => true
  | .cons _ c rest => wfChildren c && wfList rest
end

/-- Histogram maximum count. -/
def maxCount (classes : List (String × Nat)) : Nat :=
  (classes.map Prod.snd).foldr Nat.max 0

/-- The histogram has a single entry attaining its (positive) maximum count:
the condition under which the majority-class loop is independent of map
iteration order. -/
def uniqueMaxB (classes : List (String × Nat)) : Bool :=
  decide (0 < maxCount classes) &&
    (classes.countP (fun p => p.2 = maxCount classes) = 1)

/-- Every histogram met during induction (with the given generator) has a
unique maximum, fuelled like `inferGo`. -/
def uniqueMaxesGo (gen : (inst : Instances) → Option {a : Attr // a ∈ inst.attrs}) :
    Nat → Instances → Bool
  | 0, _ => true
  | fuel + 1, inst =>
      let classes := countClassValues inst
      if classes.length = 1 then true
      else
        uniqueMaxB classes &&
          (if inst.attrs.length = 2 then true
           else
             match gen inst with
             | none => true
             | some ⟨sa, _⟩ =>
                 (decompose inst sa).all (fun p => uniqueMaxesGo gen fuel p.2))

def uniqueMaxes (gen : (inst : Instances) → Option {a : Attr // a ∈ inst.attrs})
    (inst : Instances) : Bool :=
  uniqueMaxesGo gen (inst.attrs.length + 1) inst

/-! ### Concrete fixtures used by counterexamples and witnesses -/

/-- A RuleGenerator that never proposes a split. -/
def genNone : (inst : Instances) → Option {a : Attr // a ∈ inst.attrs} := fun _ => none

/-- The reversing iteration-order oracle (a permutation, like every real Go
map iteration). -/
def revOrd : List String → List String := fun l => l.reverse

def c1Leaf : DecisionTreeNode := .mk .LeafNode none none [("1", 1)] "1" 0

def c1Children : ChildList := .cons "m" c1Leaf .nil

/-- A fitted Rule node: split on attribute 1, one child for value "m",
majority label "0". -/
def c1Tree : DecisionTreeNode :=
  .mk .RuleNode (some c1Children) (some 1) [("0", 2), ("1", 1)] "0" 0

/-- A row whose value "a" for the split attribute was unseen at training. -/
def c1Row : Row := fun a => if a = 1 then "a" else "0"

def c1What : Instances := ⟨[0, 1], 0, [c1Row]⟩

/-- An induction input on which two class labels tie at the maximal count. -/
def c2Inst : Instances := ⟨[0, 1], 0,
  [fun a => if a = 0 then "b" else "p",
   fun a => if a = 0 then "b" else "q",
   fun a => if a = 0 then "a" else "p",
   fun a => if a = 0 then "a" else "q"]⟩

/-- A partition whose class histogram has a unique maximum (two rows of class
"b", one of class "a"). -/
def c3Inst : Instances := ⟨[0, 1], 0,
  [fun a => if a = 0 then "b" else "p",
   fun a => if a = 0 then "b" else "q",
   fun a => if a = 0 then "a" else "p"]⟩

/-- A concrete stand-in for the external train/test splitter. -/
def c7Split : Instances → ℚ → Instances × Instances :=
  fun ds _ => (⟨ds.attrs, ds.classAttr, ds.rows.take 1⟩, ⟨ds.attrs, ds.classAttr, ds.rows.drop 1⟩)

/-- Trivial stand-ins for the external bagging aggregator's training and
vote-combination passes. -/
def c8AggFit : BaggedModel → Instances → BaggedModel := fun b _ => b

def c8AggPredict : BaggedModel → Instances → List (Option String) := fun _ _ => []

/-- Leaf for split value "p" of attribute 2 (class "0"). -/
def c5LeafP : DecisionTreeNode := .mk .LeafNode none none [("0", 1)] "0" 0

/-- Leaf for split value "q" of attribute 2 (class "1"). -/
def c5LeafQ : DecisionTreeNode := .mk .LeafNode none none [("1", 2)] "1" 0

/-- Inner Rule node: splits on attribute 2, majority label "0". -/
def c5Mid : DecisionTreeNode :=
  .mk .RuleNode (some (.cons "p" c5LeafP (.cons "q" c5LeafQ .nil))) (some 2)
    [("0", 1), ("1", 2)] "0" 0

/-- Root Rule node: splits on attribute 1 with the single child "m". -/
def c5Tree : DecisionTreeNode :=
  .mk .RuleNode (some (.cons "m" c5Mid .nil)) (some 1) [("0", 1), ("1", 2)] "1" 0

/-- Row routed to the matching child "m". -/
def c5RowM : Row := fun a => if a = 1 then "m" else if a = 2 then "p" else "0"

/-- Row with the unseen split value "a", routed to "m" by the fallback. -/
def c5RowA : Row := fun a => if a = 1 then "a" else if a = 2 then "q" else "1"

/-- Validation set on which pruning `c5Tree` strictly degrades accuracy. -/
def c5Inst : Instances := ⟨[0, 1, 2], 0, [c5RowM, c5RowA, c5RowA]⟩

/-- A validation set congruent with `c5Tree` (every row matches a child at
every Rule node). -/
def c5CongInst : Instances := ⟨[0, 1, 2], 0, [c5RowM]⟩

/-! ### General lemmas about the embedding -/

theorem correctCount_le_length (p : List (Option String)) (u : Instances) :
    correctCount p u ≤ u.rows.length := by
  calc correctCount p u ≤ (p.zip u.rows).length := List.countP_le_length _
    _ ≤ u.rows.length := by
        rw [List.length_zip]; exact min_le_right _ _

/-- The count comparison performed by `Prune` is exactly the source's
accuracy comparison: both accuracies share the denominator `rows.length`. -/
theorem computeAccuracy_lt_iff_correctCount_lt
    (p q : List (Option String)) (u : Instances) :
    computeAccuracy p u < computeAccuracy q u ↔
      correctCount p u < correctCount q u := by
  unfold computeAccuracy
  rcases Nat.eq_zero_or_pos u.rows.length with h | h
  · have hp := correctCount_le_length p u
    have hq := correctCount_le_length q u
    rw [h, Nat.le_zero] at hp hq
    simp [hp, hq, h]
  · have hn : (0 : ℚ) < (u.rows.length : ℚ) := by exact_mod_cast h
    rw [div_lt_div_iff_of_pos_right hn]
    exact_mod_cast Iff.rfl

theorem bestChildLoop_mem (v : String) :
    ∀ (l : List String) (acc : String), l ≠ [] → bestChildLoop v l acc ∈ l
  | [], _, h => absurd rfl h
  | c :: rest, acc, _ => by
      rw [bestChildLoop]
      by_cases hc : strLt v c = true
      · simp [hc]
      · simp only [hc, if_false, Bool.false_eq_true]
        by_cases hr : rest = []
        · subst hr; simp [bestChildLoop]
        · exact List.mem_cons_of_mem _ (bestChildLoop_mem v rest c hr)

theorem childAt_isSome_iff : ∀ (cl : ChildList) (t : String),
    (childAt cl t).isSome = true ↔ t ∈ childKeys cl
  | .nil, t => by simp [childAt, childKeys]
  | .cons k c rest, t => by
      rw [childAt, childKeys]
      by_cases hk : k = t
      · simp [hk]
      · simp [hk, childAt_isSome_iff rest t, List.mem_cons, Ne.symm hk]

/-- Walking the children map to a key and continuing there is the map read
`Children[target]` followed by the traversal of the child found (or the panic
`none`). -/
theorem findPredict_eq (attrs : List Attr) (ord : List String → List String)
    (row : Row) : ∀ (cl : ChildList) (t : String),
    findPredict attrs ord row cl t =
      match childAt cl t with
      | some c => predictRow attrs ord row c
      | none => none
  | .nil, _ => rfl
  | .cons k c rest, t => by
      rw [findPredict, childAt]
      by_cases hk : k = t
      · simp [hk]
      · simp [hk, findPredict_eq attrs ord row rest t]

/-! ### Claim C1 -/

/-- Claim C1 is false on the code: at the Rule node `c1Tree`, the row value
"a" has no matching child, yet the traversal does not emit the node's
majority label "0" — it descends into the fallback child and emits that
child's label "1". -/
theorem predict_unseen_value_counterexample :
    (childAt c1Children (c1Row 1)).isNone = true ∧
    c1Tree.classLabel = "0" ∧
    predictRow c1What.attrs id c1Row c1Tree = some "1" := by decide

/-- Claim C1 (amended): when prediction reaches a Rule node whose resolved
value has no matching child, the traversal does not emit the node's majority
label; it descends into the fallback child selected by the map-iteration
loop — the first enumerated child key strictly greater than the row's value,
or the last enumerated key when none is greater. -/
theorem predict_unseen_value_descends
    (attrs : List Attr) (ord : List String → List String) (row : Row)
    (t : NodeType) (cl : ChildList) (a : Attr) (dist : List (String × Nat))
    (cls : String) (ca : Attr)
    (hord : ∀ ks, (ord ks).Perm ks)
    (ha : a ∈ attrs)
    (hmiss : (childAt cl (row a)).isNone = true)
    (hne : childKeys cl ≠ []) :
    ∃ c, childAt cl (bestChildLoop (row a) (ord (childKeys cl)) "") = some c ∧
      predictRow attrs ord row (.mk t (some cl) (some a) dist cls ca) =
        predictRow attrs ord row c := by
  have hone : ord (childKeys cl) ≠ [] := by
    intro h
    exact hne (List.Perm.eq_nil ((hord (childKeys cl)).symm.trans (h ▸ List.Perm.refl _)))
  have hb : bestChildLoop (row a) (ord (childKeys cl)) "" ∈ childKeys cl :=
    (hord (childKeys cl)).mem_iff.mp (bestChildLoop_mem _ _ _ hone)
  obtain ⟨c, hc⟩ := Option.isSome_iff_exists.mp ((childAt_isSome_iff cl _).mpr hb)
  refine ⟨c, hc, ?_⟩
  rw [predictRow]
  have hmiss' : (childAt cl (row a)).isSome = false := by
    cases hh : childAt cl (row a) with
    | none => rfl
    | some x => rw [hh] at hmiss; simp at hmiss
  simp only [ha, if_pos, hmiss', Bool.false_eq_true, if_false, if_true]
  rw [findPredict_eq, hc]

/-- Witness for `predict_unseen_value_descends` at the `c1Tree` fixture. -/
theorem predict_unseen_value_descends_witness :
    ∃ c, childAt c1Children
          (bestChildLoop (c1Row 1) (id (childKeys c1Children)) "") = some c ∧
      predictRow [0, 1] id c1Row
          (.mk .RuleNode (some c1Children) (some 1) [("0", 2), ("1", 1)] "0" 0) =
        predictRow [0, 1] id c1Row c :=
  predict_unseen_value_descends [0, 1] id c1Row .RuleNode c1Children 1
    [("0", 2), ("1", 1)] "0" 0 (fun ks => List.Perm.refl ks)
    (by decide) (by decide) (by decide)

/-! ### The majority-class loop -/

theorem majorityLoop_acc_le (classes : List (String × Nat)) :
    ∀ (ks : List String) (acc : String × Nat),
      acc.2 ≤ (majorityLoop classes ks acc).2
  | [], _ => le_refl _
  | i :: rest, acc => by
      rw [majorityLoop]
      by_cases hc : histLookup classes i > acc.2
      · simp only [hc, if_true]
        have h2 := majorityLoop_acc_le classes rest (i, histLookup classes i)
        exact le_trans (le_of_lt hc) h2
      · simp only [hc, if_false]
        exact majorityLoop_acc_le classes rest acc

theorem majorityLoop_le (classes : List (String × Nat)) :
    ∀ (ks : List String) (acc : String × Nat), ∀ i ∈ ks,
      histLookup classes i ≤ (majorityLoop classes ks acc).2
  | [], _, i, hi => absurd hi (List.not_mem_nil i)
  | j :: rest, acc, i, hi => by
      rw [majorityLoop]
      by_cases hc : histLookup classes j > acc.2
      · simp only [hc, if_true]
        rcases List.mem_cons.mp hi with h | h
        · subst h
          exact majorityLoop_acc_le classes rest (i, histLookup classes i)
        · exact majorityLoop_le classes rest _ i h
      · simp only [hc, if_false]
        rcases List.mem_cons.mp hi with h | h
        · subst h
          exact le_trans (Nat.le_of_not_lt hc) (majorityLoop_acc_le classes rest acc)
        · exact majorityLoop_le classes rest acc i h

theorem majorityLoop_cases (classes : List (String × Nat)) :
    ∀ (ks : List String) (acc : String × Nat),
      majorityLoop classes ks acc = acc ∨
      ∃ i ∈ ks, (majorityLoop classes ks acc).1 = i ∧
        (majorityLoop classes ks acc).2 = histLookup classes i ∧
        acc.2 < (majorityLoop classes ks acc).2
  | [], acc => Or.inl rfl
  | j :: rest, acc => by
      rw [majorityLoop]
      by_cases hc : histLookup classes j > acc.2
      · simp only [hc, if_true]
        rcases majorityLoop_cases classes rest (j, histLookup classes j) with h | h
        · right
          exact ⟨j, List.mem_cons_self j rest, by rw [h], by rw [h], by rw [h]; exact hc⟩
        · obtain ⟨i, hi, h1, h2, h3⟩ := h
          right
          exact ⟨i, List.mem_cons_of_mem j hi, h1, h2, lt_trans hc h3⟩
      · simp only [hc, if_false]
        rcases majorityLoop_cases classes rest acc with h | h
        · exact Or.inl h
        · obtain ⟨i, hi, h1, h2, h3⟩ := h
          exact Or.inr ⟨i, List.mem_cons_of_mem j hi, h1, h2, h3⟩

theorem histLookup_of_mem : ∀ (classes : List (String × Nat)) (k : String) (v : Nat),
    (classes.map Prod.fst).Nodup → (k, v) ∈ classes → histLookup classes k = v
  | [], k, v, _, hm => absurd hm (List.not_mem_nil _)
  | (k', v') :: rest, k, v, hnd, hm => by
      rw [histLookup]
      rcases List.mem_cons.mp hm with h | h
      · obtain ⟨h1, h2⟩ := Prod.mk.injEq .. ▸ h
        simp [← h1, ← h2]
      · have hk : k' ≠ k := by
          intro he
          have : k ∈ rest.map Prod.fst := List.mem_map.mpr ⟨(k, v), h, rfl⟩
          rw [List.map_cons] at hnd
          exact (List.nodup_cons.mp hnd).1 (he ▸ this)
        rw [if_neg hk]
        exact histLookup_of_mem rest k v (List.nodup_cons.mp (List.map_cons _ _ _ ▸ hnd)).2 h

theorem histLookup_mem : ∀ (classes : List (String × Nat)) (k : String),
    k ∈ classes.map Prod.fst → (k, histLookup classes k) ∈ classes
  | [], k, h => absurd h (List.not_mem_nil _)
  | (k', v') :: rest, k, h => by
      rw [histLookup]
      by_cases hk : k' = k
      · rw [if_pos hk, hk]
        exact List.mem_cons_self _ _
      · rw [if_neg hk]
        rcases List.mem_cons.mp (List.map_cons _ _ _ ▸ h) with h' | h'
        · exact absurd h'.symm hk
        · exact List.mem_cons_of_mem _ (histLookup_mem rest k h')

/-- The key the majority loop settles on attains the maximal count over all
histogram entries, for any iteration order that enumerates each key once and
provided some entry is positive. -/
theorem chooseMajority_attains_max (ord : List String → List String)
    (classes : List (String × Nat))
    (hord : ∀ ks, (ord ks).Perm ks)
    (hnd : (classes.map Prod.fst).Nodup)
    (hpos : ∃ p ∈ classes, 0 < p.2) :
    ∃ v, (chooseMajority ord classes, v) ∈ classes ∧ ∀ p ∈ classes, p.2 ≤ v := by
  obtain ⟨p₀, hp₀, hp₀pos⟩ := hpos
  have hperm := hord (classes.map Prod.fst)
  have hp₀ks : p₀.1 ∈ ord (classes.map Prod.fst) :=
    hperm.mem_iff.mpr (List.mem_map.mpr ⟨p₀, hp₀, rfl⟩)
  have hlook₀ : histLookup classes p₀.1 = p₀.2 := histLookup_of_mem classes p₀.1 p₀.2 hnd hp₀
  rcases majorityLoop_cases classes (ord (classes.map Prod.fst)) ("", 0) with h | h
  · exfalso
    have := majorityLoop_le classes (ord (classes.map Prod.fst)) ("", 0) p₀.1 hp₀ks
    rw [h, hlook₀] at this
    exact absurd (Nat.le_zero.mp this) (Nat.pos_iff_ne_zero.mp hp₀pos)
  · obtain ⟨i, hi, h1, h2, _⟩ := h
    refine ⟨(majorityLoop classes (ord (classes.map Prod.fst)) ("", 0)).2, ?_, ?_⟩
    · rw [chooseMajority, h1, h2]
      exact histLookup_mem classes i (hperm.mem_iff.mp hi)
    · intro p hp
      have hpks : p.1 ∈ ord (classes.map Prod.fst) :=
        hperm.mem_iff.mpr (List.mem_map.mpr ⟨p, hp, rfl⟩)
      have := majorityLoop_le classes (ord (classes.map Prod.fst)) ("", 0) p.1 hpks
      rwa [histLookup_of_mem classes p.1 p.2 hnd hp] at this

/-! ### Distinct values and histogram structure -/

theorem distinctVals_acc_sub (a : Attr) :
    ∀ (rows : List Row) (acc : List String) (v : String),
      v ∈ acc → v ∈ rows.foldl (fun acc r => if (r a) ∈ acc then acc else acc ++ [r a]) acc
  | [], _, _, hv => hv
  | r :: rest, acc, v, hv => by
      rw [List.foldl_cons]
      by_cases hm : (r a) ∈ acc
      · simp only [hm, if_true]
        exact distinctVals_acc_sub a rest acc v hv
      · simp only [hm, if_false]
        exact distinctVals_acc_sub a rest _ v (List.mem_append_left _ hv)

theorem distinctVals_nodup_aux (a : Attr) :
    ∀ (rows : List Row) (acc : List String), acc.Nodup →
      (rows.foldl (fun acc r => if (r a) ∈ acc then acc else acc ++ [r a]) acc).Nodup
  | [], _, h => h
  | r :: rest, acc, h => by
      rw [List.foldl_cons]
      by_cases hm : (r a) ∈ acc
      · simp only [hm, if_true]
        exact distinctVals_nodup_aux a rest acc h
      · simp only [hm, if_false]
        refine distinctVals_nodup_aux a rest _ ?_
        simp [List.nodup_append, h, hm]

theorem distinctVals_nodup (a : Attr) (rows : List Row) : (distinctVals a rows).Nodup :=
  distinctVals_nodup_aux a rows [] List.nodup_nil

theorem distinctVals_spec_aux (a : Attr) :
    ∀ (rows : List Row) (acc : List String) (v : String),
      v ∈ rows.foldl (fun acc r => if (r a) ∈ acc then acc else acc ++ [r a]) acc →
      v ∈ acc ∨ ∃ r ∈ rows, r a = v
  | [], _, v, hv => Or.inl hv
  | r :: rest, acc, v, hv => by
      rw [List.foldl_cons] at hv
      by_cases hm : (r a) ∈ acc
      · simp only [hm, if_true] at hv
        rcases distinctVals_spec_aux a rest acc v hv with h | ⟨r', h1, h2⟩
        · exact Or.inl h
        · exact Or.inr ⟨r', List.mem_cons_of_mem _ h1, h2⟩
      · simp only [hm, if_false] at hv
        rcases distinctVals_spec_aux a rest _ v hv with h | ⟨r', h1, h2⟩
        · rcases List.mem_append.mp h with h' | h'
          · exact Or.inl h'
          · rcases List.mem_singleton.mp h' with h''
            exact Or.inr ⟨r, List.mem_cons_self _ _, h''.symm⟩
        · exact Or.inr ⟨r', List.mem_cons_of_mem _ h1, h2⟩

theorem exists_row_of_mem_distinctVals (a : Attr) (rows : List Row) (v : String)
    (hv : v ∈ distinctVals a rows) : ∃ r ∈ rows, r a = v := by
  rcases distinctVals_spec_aux a rows [] v hv with h | h
  · exact absurd h (List.not_mem_nil v)
  · exact h

theorem mem_distinctVals (a : Attr) :
    ∀ (rows : List Row) (acc : List String) (r : Row), r ∈ rows →
      r a ∈ rows.foldl (fun acc r => if (r a) ∈ acc then acc else acc ++ [r a]) acc
  | [], _, r, hr => absurd hr (List.not_mem_nil r)
  | r' :: rest, acc, r, hr => by
      rw [List.foldl_cons]
      rcases List.mem_cons.mp hr with h | h
      · subst h
        by_cases hm : (r a) ∈ acc
        · simp only [hm, if_true]
          exact distinctVals_acc_sub a rest acc _ hm
        · simp only [hm, if_false]
          exact distinctVals_acc_sub a rest _ _ (List.mem_append_right _ (List.mem_singleton.mpr rfl))
      · by_cases hm : (r' a) ∈ acc
        · simp only [hm, if_true]
          exact mem_distinctVals a rest acc r h
        · simp only [hm, if_false]
          exact mem_distinctVals a rest _ r h

theorem map_fst_map_pair {β : Type} (f : String → β) :
    ∀ l : List String, (l.map (fun v => (v, f v))).map Prod.fst = l
  | [] => rfl
  | v :: rest => by rw [List.map_cons, List.map_cons, map_fst_map_pair f rest]

theorem countClassValues_keys (inst : Instances) :
    (countClassValues inst).map Prod.fst = distinctVals inst.classAttr inst.rows := by
  rw [countClassValues]
  exact map_fst_map_pair _ _

theorem countClassValues_keys_nodup (inst : Instances) :
    ((countClassValues inst).map Prod.fst).Nodup := by
  rw [countClassValues_keys]
  exact distinctVals_nodup _ _

theorem countClassValues_pos (inst : Instances) :
    ∀ p ∈ countClassValues inst, 0 < p.2 := by
  intro p hp
  rw [countClassValues] at hp
  obtain ⟨v, hv, hpv⟩ := List.mem_map.mp hp
  obtain ⟨r, hr, hra⟩ := exists_row_of_mem_distinctVals _ _ v hv
  subst hpv
  simp only
  rw [List.length_pos_iff_exists_mem]
  exact ⟨r, List.mem_filter.mpr ⟨hr, by simp [hra]⟩⟩

/-- For a multi-class partition, the induced node's label is the one computed
by the majority loop, whichever later branch is taken. -/
theorem InferID3Tree_classLabel (ord : List String → List String)
    (gen : (inst : Instances) → Option {a : Attr // a ∈ inst.attrs})
    (inst : Instances)
    (hmulti : (countClassValues inst).length ≠ 1) :
    (InferID3Tree ord gen inst).classLabel =
      chooseMajority ord (countClassValues inst) := by
  rw [InferID3Tree, inferGo]
  simp only [hmulti, if_false]
  by_cases h2 : inst.attrs.length = 2
  · simp [h2, DecisionTreeNode.classLabel]
  · simp only [h2, if_false]
    cases hg : gen inst with
    | none => rfl
    | some s => cases s with
      | mk sa hsa => rfl

/-! ### Claim C2 -/

/-- Claim C2 is false on the code: on `c2Inst` the histogram ties "b" and "a"
at count 2, "a" is the lexicographically smallest tied label, yet induction
(with the iteration order that enumerates "b" first) assigns majority label
"b". -/
theorem majority_tie_break_counterexample :
    countClassValues c2Inst = [("b", 2), ("a", 2)] ∧
    strLt "a" "b" = true ∧
    (InferID3Tree id genNone c2Inst).classLabel = "b" := by decide

/-- Claim C2 (amended): for every partition with more than one class, the
majority label assigned to the node is a histogram entry with the highest
count (whenever the map iteration enumerates each key exactly once), but a
tie at the highest count is broken by the iteration order — the loop keeps
the first maximal key it meets — not lexicographically. -/
theorem majority_label_attains_max (ord : List String → List String)
    (gen : (inst : Instances) → Option {a : Attr // a ∈ inst.attrs})
    (inst : Instances)
    (hord : ∀ ks, (ord ks).Perm ks)
    (hmulti : 2 ≤ (countClassValues inst).length) :
    ∃ v, ((InferID3Tree ord gen inst).classLabel, v) ∈ countClassValues inst ∧
      ∀ p ∈ countClassValues inst, p.2 ≤ v := by
  have hne : countClassValues inst ≠ [] := by
    intro h
    rw [h] at hmulti
    exact absurd hmulti (by simp)
  obtain ⟨p₀, hp₀⟩ := List.exists_mem_of_ne_nil _ hne
  rw [InferID3Tree_classLabel ord gen inst (by omega)]
  exact chooseMajority_attains_max ord (countClassValues inst) hord
    (countClassValues_keys_nodup inst) ⟨p₀, hp₀, countClassValues_pos inst p₀ hp₀⟩

/-- Witness for `majority_label_attains_max` at the `c2Inst` fixture. -/
theorem majority_label_attains_max_witness :
    ∃ v, ((InferID3Tree id genNone c2Inst).classLabel, v) ∈ countClassValues c2Inst ∧
      ∀ p ∈ countClassValues c2Inst, p.2 ≤ v :=
  majority_label_attains_max id genNone c2Inst (fun ks => List.Perm.refl ks) (by decide)

/-! ### Claim C3 -/

/-- Claim C3 is false on the code: two runs of `InferID3Tree` on the same
partition `c2Inst` with the same `RuleGenerator`, differing only in the
(non-input) map iteration order — both oracles enumerate each key exactly
once — produce structurally different trees: the majority-label tie is
resolved to "b" in one run and to "a" in the other. -/
theorem infer_determinism_counterexample :
    (∀ ks : List String, (id ks).Perm ks) ∧
    (∀ ks : List String, (revOrd ks).Perm ks) ∧
    (InferID3Tree id genNone c2Inst).classLabel = "b" ∧
    (InferID3Tree revOrd genNone c2Inst).classLabel = "a" ∧
    InferID3Tree id genNone c2Inst ≠ InferID3Tree revOrd genNone c2Inst := by
  refine ⟨fun ks => List.Perm.refl ks, fun ks => List.reverse_perm ks,
    by decide, by decide, fun h => ?_⟩
  have hb : (InferID3Tree id genNone c2Inst).classLabel = "b" := by decide
  have ha : (InferID3Tree revOrd genNone c2Inst).classLabel = "a" := by decide
  rw [h, ha] at hb
  exact absurd hb (by decide)

theorem le_maxCount : ∀ (classes : List (String × Nat)), ∀ p ∈ classes, p.2 ≤ maxCount classes
  | [], p, hp => absurd hp (List.not_mem_nil p)
  | q :: rest, p, hp => by
      have hq : maxCount (q :: rest) = Nat.max q.2 (maxCount rest) := by
        rw [maxCount, maxCount, List.map_cons, List.foldr_cons]
      rcases List.mem_cons.mp hp with h | h
      · subst h
        rw [hq]
        exact Nat.le_max_left _ _
      · rw [hq]
        exact le_trans (le_maxCount rest p h) (Nat.le_max_right _ _)

theorem countP_eq_one_unique {α : Type} (P : α → Bool) :
    ∀ (l : List α), l.countP P = 1 →
      ∀ p ∈ l, P p = true → ∀ q ∈ l, P q = true → p = q
  | [], _, p, hp, _, _, _, _ => absurd hp (List.not_mem_nil p)
  | a :: rest, h, p, hp, hP, q, hq, hQ => by
      rw [List.countP_cons] at h
      by_cases ha : P a = true
      · rw [if_pos ha] at h
        have hz : rest.countP P = 0 := by omega
        have hnone : ∀ x ∈ rest, ¬ P x = true := by
          intro x hx
          exact (List.countP_eq_zero.mp hz) x hx
        have hpa : p = a := by
          rcases List.mem_cons.mp hp with h' | h'
          · exact h'
          · exact absurd hP (hnone p h')
        have hqa : q = a := by
          rcases List.mem_cons.mp hq with h' | h'
          · exact h'
          · exact absurd hQ (hnone q h')
        rw [hpa, hqa]
      · rw [if_neg ha] at h
        simp only [add_zero] at h
        have hp' : p ∈ rest := by
          rcases List.mem_cons.mp hp with h' | h'
          · exact absurd (h' ▸ hP) ha
          · exact h'
        have hq' : q ∈ rest := by
          rcases List.mem_cons.mp hq with h' | h'
          · exact absurd (h' ▸ hQ) ha
          · exact h'
        exact countP_eq_one_unique P rest h p hp' hP q hq' hQ

/-- Under a unique positive maximum, the majority loop's choice does not
depend on the iteration order: it is the unique maximal key. -/
theorem chooseMajority_eq_of_uniqueMax (ord : List String → List String)
    (classes : List (String × Nat))
    (hord : ∀ ks, (ord ks).Perm ks)
    (hnd : (classes.map Prod.fst).Nodup)
    (hpos : 0 < maxCount classes)
    (k₀ : String)
    (hk₀ : (k₀, maxCount classes) ∈ classes)
    (huniq : ∀ p ∈ classes, p.2 = maxCount classes → p.1 = k₀) :
    chooseMajority ord classes = k₀ := by
  have hperm := hord (classes.map Prod.fst)
  have hk₀ks : k₀ ∈ ord (classes.map Prod.fst) :=
    hperm.mem_iff.mpr (List.mem_map.mpr ⟨(k₀, maxCount classes), hk₀, rfl⟩)
  have hlook₀ : histLookup classes k₀ = maxCount classes :=
    histLookup_of_mem classes k₀ _ hnd hk₀
  rcases majorityLoop_cases classes (ord (classes.map Prod.fst)) ("", 0) with h | h
  · exfalso
    have := majorityLoop_le classes (ord (classes.map Prod.fst)) ("", 0) k₀ hk₀ks
    rw [h, hlook₀] at this
    omega
  · obtain ⟨i, hi, h1, h2, _⟩ := h
    have himem : (i, histLookup classes i) ∈ classes :=
      histLookup_mem classes i (hperm.mem_iff.mp hi)
    have hle : histLookup classes i ≤ maxCount classes :=
      le_maxCount classes (i, histLookup classes i) himem
    have hge : maxCount classes ≤ histLookup classes i := by
      have := majorityLoop_le classes (ord (classes.map Prod.fst)) ("", 0) k₀ hk₀ks
      rw [h2] at this
      rw [hlook₀] at this
      exact this
    have heq : histLookup classes i = maxCount classes := le_antisymm hle hge
    rw [chooseMajority, h1]
    exact huniq (i, histLookup classes i) himem heq

theorem lastKey_indep (ord₁ ord₂ : List String → List String)
    (classes : List (String × Nat))
    (h₁ : ∀ ks, (ord₁ ks).Perm ks) (h₂ : ∀ ks, (ord₂ ks).Perm ks)
    (hone : classes.length = 1) :
    lastKey ord₁ classes = lastKey ord₂ classes := by
  obtain ⟨p, hp⟩ := List.length_eq_one.mp hone
  subst hp
  rw [lastKey, lastKey]
  have e₁ : ord₁ ([p].map Prod.fst) = [p.1] := List.perm_singleton.mp (h₁ _)
  have e₂ : ord₂ ([p].map Prod.fst) = [p.1] := List.perm_singleton.mp (h₂ _)
  rw [e₁, e₂]

/-- Extract the unique-argmax structure from `uniqueMaxB`. -/
theorem uniqueMaxB_spec (classes : List (String × Nat))
    (hum : uniqueMaxB classes = true) :
    0 < maxCount classes ∧
    ∃ k₀, (k₀, maxCount classes) ∈ classes ∧
      ∀ p ∈ classes, p.2 = maxCount classes → p.1 = k₀ := by
  rw [uniqueMaxB, Bool.and_eq_true] at hum
  obtain ⟨hpos, hcnt⟩ := hum
  have hpos' : 0 < maxCount classes := of_decide_eq_true hpos
  have hcnt' : classes.countP (fun p => decide (p.2 = maxCount classes)) = 1 :=
    of_decide_eq_true hcnt
  have hex : 0 < classes.countP (fun p => decide (p.2 = maxCount classes)) := by omega
  obtain ⟨p₀, hp₀, hP₀⟩ := List.countP_pos_iff.mp hex
  have hp₀max : p₀.2 = maxCount classes := of_decide_eq_true hP₀
  refine ⟨hpos', p₀.1, ?_, ?_⟩
  · have : p₀ = (p₀.1, maxCount classes) := by
      rw [← hp₀max]
    exact this ▸ hp₀
  · intro p hp hpmax
    have heq : p = p₀ :=
      countP_eq_one_unique _ classes hcnt' p hp (decide_eq_true hpmax) p₀ hp₀ hP₀
    rw [heq]

theorem decompose_attrs (inst : Instances) (a : Attr) :
    ∀ p ∈ decompose inst a, p.2.attrs = inst.attrs.erase a := by
  intro p hp
  rw [decompose] at hp
  obtain ⟨v, _, hv⟩ := List.mem_map.mp hp
  rw [← hv]

/-- Order-independence of the fuelled induction under unique maxima. -/
theorem inferGo_indep (ord₁ ord₂ : List String → List String)
    (gen : (inst : Instances) → Option {a : Attr // a ∈ inst.attrs})
    (h₁ : ∀ ks, (ord₁ ks).Perm ks) (h₂ : ∀ ks, (ord₂ ks).Perm ks) :
    ∀ (fuel : Nat) (inst : Instances), inst.attrs.length < fuel →
      uniqueMaxesGo gen fuel inst = true →
      inferGo ord₁ gen fuel inst = inferGo ord₂ gen fuel inst
  | 0, inst, hlt, _ => absurd hlt (Nat.not_lt_zero _)
  | fuel + 1, inst, hlt, hum => by
      rw [inferGo, inferGo]
      rw [uniqueMaxesGo] at hum
      by_cases hone : (countClassValues inst).length = 1
      · simp only [hone, if_true]
        rw [lastKey_indep ord₁ ord₂ _ h₁ h₂ hone]
      · simp only [hone, if_false] at hum ⊢
        rw [Bool.and_eq_true] at hum
        obtain ⟨humB, hrest⟩ := hum
        obtain ⟨hpos, k₀, hk₀, huniq⟩ := uniqueMaxB_spec _ humB
        have hmaj : chooseMajority ord₁ (countClassValues inst) =
            chooseMajority ord₂ (countClassValues inst) := by
          rw [chooseMajority_eq_of_uniqueMax ord₁ _ h₁ (countClassValues_keys_nodup inst)
                hpos k₀ hk₀ huniq,
              chooseMajority_eq_of_uniqueMax ord₂ _ h₂ (countClassValues_keys_nodup inst)
                hpos k₀ hk₀ huniq]
        by_cases h2 : inst.attrs.length = 2
        · simp [h2, hmaj]
        · simp only [h2, if_false] at hrest ⊢
          cases hg : gen inst with
          | none => simp [hmaj]
          | some s =>
              cases s with
              | mk sa hsa =>
                  rw [hg] at hrest
                  simp only at hrest
                  have hall := List.all_eq_true.mp hrest
                  have hmap : (decompose inst sa).map
                      (fun p => (p.1, inferGo ord₁ gen fuel p.2)) =
                      (decompose inst sa).map
                      (fun p => (p.1, inferGo ord₂ gen fuel p.2)) := by
                    refine List.map_congr_left ?_
                    intro p hp
                    have hattrs := decompose_attrs inst sa p hp
                    have hlen : p.2.attrs.length < fuel := by
                      rw [hattrs, List.length_erase_of_mem hsa]
                      have hposlen : 0 < inst.attrs.length := List.length_pos.mpr
                        (by intro h; rw [h] at hsa; exact absurd hsa (List.not_mem_nil _))
                      omega
                    rw [inferGo_indep ord₁ ord₂ gen h₁ h₂ fuel p.2 hlen (hall p hp)]
                  dsimp only
                  rw [hmap, hmaj]

/-- Claim C3 (amended): induction is deterministic relative to the map
iteration order: two runs with identical partition, identical generator and
identical iteration behaviour coincide; moreover, whenever every histogram
met during induction has a unique maximal count (`uniqueMaxes`), the
resulting tree does not depend on the iteration order at all.  The
counterexample shows that without this condition — i.e. exactly when a
majority-label tie occurs — identical `(partition, RuleGenerator)` inputs can
produce structurally different trees across runs. -/
theorem infer_deterministic_of_unique_maxes (ord₁ ord₂ : List String → List String)
    (gen : (inst : Instances) → Option {a : Attr // a ∈ inst.attrs})
    (inst : Instances)
    (h₁ : ∀ ks, (ord₁ ks).Perm ks) (h₂ : ∀ ks, (ord₂ ks).Perm ks)
    (hum : uniqueMaxes gen inst = true) :
    InferID3Tree ord₁ gen inst = InferID3Tree ord₂ gen inst :=
  inferGo_indep ord₁ ord₂ gen h₁ h₂ (inst.attrs.length + 1) inst
    (Nat.lt_succ_self _) hum

/-- Witness for `infer_deterministic_of_unique_maxes` at the `c3Inst`
fixture, with the identity and the reversing iteration oracles. -/
theorem infer_deterministic_of_unique_maxes_witness :
    InferID3Tree id genNone c3Inst = InferID3Tree revOrd genNone c3Inst :=
  infer_deterministic_of_unique_maxes id revOrd genNone c3Inst
    (fun ks => List.Perm.refl ks) (fun ks => List.reverse_perm ks) (by decide)

/-! ### Claim C4 -/

/-- Claim C4 is false on the code: `c2Inst` has two attributes — the class
attribute 0 and the non-class attribute 1 — and more than one class, yet
induction returns a Leaf: the early-leaf exit (`GetAttributeCount() == 2`)
triggers although a non-class attribute is still available. -/
theorem early_leaf_exit_counterexample :
    (1 : Attr) ∈ c2Inst.attrs ∧
    (1 : Attr) ≠ c2Inst.classAttr ∧
    2 ≤ (countClassValues c2Inst).length ∧
    (InferID3Tree id genNone c2Inst).typ = NodeType.LeafNode ∧
    (InferID3Tree id genNone c2Inst).children.isNone = true := by decide

/-- Claim C4 (amended): for a partition with more than one class, the
early-leaf exit is taken exactly when the attribute count is 2 — i.e. when
exactly one non-class attribute remains — returning a Leaf with the majority
label; with any other attribute count (including zero remaining non-class
attributes) the early-leaf exit is not taken and induction produces a Rule
node. -/
theorem early_leaf_exit_iff_two_attributes (ord : List String → List String)
    (gen : (inst : Instances) → Option {a : Attr // a ∈ inst.attrs})
    (inst : Instances)
    (hmulti : (countClassValues inst).length ≠ 1) :
    (inst.attrs.length = 2 →
      InferID3Tree ord gen inst =
        .mk .LeafNode none none (countClassValues inst)
          (chooseMajority ord (countClassValues inst)) inst.classAttr) ∧
    (inst.attrs.length ≠ 2 →
      (InferID3Tree ord gen inst).typ = NodeType.RuleNode) := by
  constructor
  · intro h2
    rw [InferID3Tree, inferGo]
    simp [hmulti, h2]
  · intro h2
    rw [InferID3Tree, inferGo]
    simp only [hmulti, if_false, h2]
    cases hg : gen inst with
    | none => rfl
    | some s =>
        cases s with
        | mk sa hsa => rfl

/-- Witness for `early_leaf_exit_iff_two_attributes` at the `c2Inst`
fixture. -/
theorem early_leaf_exit_iff_two_attributes_witness :
    InferID3Tree id genNone c2Inst =
      .mk .LeafNode none none (countClassValues c2Inst)
        (chooseMajority id (countClassValues c2Inst)) c2Inst.classAttr :=
  (early_leaf_exit_iff_two_attributes id genNone c2Inst (by decide)).1 (by decide)

/-! ### Claims C7 and C8 -/

/-- `Fit` with an effectively-zero ratio induces over the whole dataset with
no pruning (shared with the ensemble delegation theorem). -/
theorem fit_root_of_le (ord : List String → List String)
    (gen : (inst : Instances) → Option {a : Attr // a ∈ inst.attrs})
    (split : Instances → ℚ → Instances × Instances)
    (t : ID3DecisionTree) (ds : Instances)
    (h : t.PruneSplit ≤ 1 / 1000) :
    ID3DecisionTree.Fit ord gen split t ds =
      { t with Root := some (InferID3Tree ord gen ds) } := by
  rw [ID3DecisionTree.Fit, if_neg (not_lt.mpr h)]

/-- Claim C7: with pruning ratio at most 0.001 the orchestrator's fit induces
the tree over the whole dataset and performs no pruning; with a larger ratio
it splits the dataset via the external split contract, induces on the
training fraction and prunes with the validation fraction. -/
theorem fit_prune_split_spec (ord : List String → List String)
    (gen : (inst : Instances) → Option {a : Attr // a ∈ inst.attrs})
    (split : Instances → ℚ → Instances × Instances)
    (t : ID3DecisionTree) (ds : Instances) :
    (t.PruneSplit ≤ 1 / 1000 →
      ID3DecisionTree.Fit ord gen split t ds =
        { t with Root := some (InferID3Tree ord gen ds) }) ∧
    (1 / 1000 < t.PruneSplit →
      ID3DecisionTree.Fit ord gen split t ds =
        { t with Root := some (Prune ord
            (InferID3Tree ord gen (split ds t.PruneSplit).1)
            (split ds t.PruneSplit).2) }) := by
  constructor
  · exact fit_root_of_le ord gen split t ds
  · intro h
    rw [ID3DecisionTree.Fit, if_pos h]

/-- Witness for `fit_prune_split_spec`: the no-prune branch at ratio 0 and
the prune branch at ratio 1/2. -/
theorem fit_prune_split_spec_witness :
    ID3DecisionTree.Fit id genNone c7Split (NewID3DecisionTree 0) c2Inst =
      { NewID3DecisionTree 0 with Root := some (InferID3Tree id genNone c2Inst) } ∧
    ID3DecisionTree.Fit id genNone c7Split (NewID3DecisionTree (1/2)) c2Inst =
      { NewID3DecisionTree (1/2) with Root := some (Prune id
          (InferID3Tree id genNone (c7Split c2Inst ((NewID3DecisionTree (1/2)).PruneSplit)).1)
          (c7Split c2Inst ((NewID3DecisionTree (1/2)).PruneSplit)).2) } :=
  ⟨(fit_prune_split_spec id genNone c7Split (NewID3DecisionTree 0) c2Inst).1
      (by norm_num [NewID3DecisionTree]),
   (fit_prune_split_spec id genNone c7Split (NewID3DecisionTree (1/2)) c2Inst).2
      (by norm_num [NewID3DecisionTree])⟩

theorem addModel_loop (x : ID3DecisionTree) :
    ∀ (n : Nat) (b : BaggedModel),
      (List.range n).foldl (fun b _ => b.AddModel x) b =
        ⟨b.RandomFeatures, b.models ++ List.replicate n x⟩
  | 0, b => by simp
  | n + 1, b => by
      rw [List.range_succ, List.foldl_append, addModel_loop x n b, List.foldl_cons,
        List.foldl_nil, BaggedModel.AddModel, List.replicate_succ']
      simp

/-- Claim C8: the ensemble's fit builds exactly `ForestSize` tree
orchestrators, each constructed with pruning ratio 0 (hence pruning
disabled: each one's fit induces on its whole input with no pruning),
registers them on a fresh aggregator whose feature-subsample count is
`Features`, and hands training to the external aggregator; predict is pure
delegation to the aggregator's vote combination. -/
theorem random_forest_delegation_spec
    (aggFit : BaggedModel → Instances → BaggedModel)
    (aggPredict : BaggedModel → Instances → List (Option String))
    (f : RandomForest) (ds w : Instances) :
    (RandomForest.Fit aggFit f ds).Model =
      some (aggFit ⟨f.Features, List.replicate f.ForestSize (NewID3DecisionTree 0)⟩ ds) ∧
    (RandomForest.Fit aggFit f ds).ForestSize = f.ForestSize ∧
    (RandomForest.Fit aggFit f ds).Features = f.Features ∧
    RandomForest.PredictForest aggPredict (RandomForest.Fit aggFit f ds) w =
      some (aggPredict
        (aggFit ⟨f.Features, List.replicate f.ForestSize (NewID3DecisionTree 0)⟩ ds) w) ∧
    (∀ m ∈ List.replicate f.ForestSize (NewID3DecisionTree 0),
      ∀ (ord : List String → List String)
        (gen : (inst : Instances) → Option {a : Attr // a ∈ inst.attrs})
        (split : Instances → ℚ → Instances × Instances) (inst : Instances),
        ID3DecisionTree.Fit ord gen split m inst =
          { m with Root := some (InferID3Tree ord gen inst) }) := by
  have hm : RandomForest.Fit aggFit f ds =
      { f with Model := some (aggFit
        ⟨f.Features, List.replicate f.ForestSize (NewID3DecisionTree 0)⟩ ds) } := by
    rw [RandomForest.Fit, addModel_loop]
    simp
  refine ⟨by rw [hm], by rw [hm], by rw [hm], ?_, ?_⟩
  · rw [hm, RandomForest.PredictForest]
    rfl
  · intro m hm' ord gen split inst
    have hx : m = NewID3DecisionTree 0 := List.eq_of_mem_replicate hm'
    subst hx
    exact fit_root_of_le ord gen split _ inst (by norm_num [NewID3DecisionTree])

/-- Witness for `random_forest_delegation_spec` at a 3-tree forest with
2-feature subsampling. -/
theorem random_forest_delegation_spec_witness :
    (RandomForest.Fit c8AggFit (NewRandomForest 3 2) c2Inst).Model =
      some (c8AggFit ⟨2, List.replicate 3 (NewID3DecisionTree 0)⟩ c2Inst) :=
  (random_forest_delegation_spec c8AggFit c8AggPredict
    (NewRandomForest 3 2) c2Inst c2Inst).1

/-! ### Claim C6 -/

/-- Claim C6: at a node visited by `Prune` carrying children and a split
attribute, after the children are recursively pruned the node keeps the
collapsed (children-detached) form unless the collapsed accuracy over the
validation rows reaching the node is strictly worse than the accuracy of the
children-attached (recursively pruned) subtree over those same rows: on
equal accuracy the pruned form is kept, otherwise the children are
restored. -/
theorem prune_keeps_collapsed_unless_worse (ord : List String → List String)
    (u : Instances) (t : NodeType) (cl : ChildList) (a : Attr)
    (dist : List (String × Nat)) (cls : String) (ca : Attr) :
    (computeAccuracy (Predict ord (.mk t (some (pruneChildren ord (decompose u a) cl))
          (some a) dist cls ca) u) u ≤
       computeAccuracy (Predict ord (.mk t none (some a) dist cls ca) u) u →
      Prune ord (.mk t (some cl) (some a) dist cls ca) u =
        .mk t none (some a) dist cls ca) ∧
    (computeAccuracy (Predict ord (.mk t none (some a) dist cls ca) u) u <
       computeAccuracy (Predict ord (.mk t (some (pruneChildren ord (decompose u a) cl))
          (some a) dist cls ca) u) u →
      Prune ord (.mk t (some cl) (some a) dist cls ca) u =
        .mk t (some (pruneChildren ord (decompose u a) cl)) (some a) dist cls ca) := by
  constructor
  · intro h
    rw [Prune]
    rw [if_neg]
    intro hcnt
    exact absurd ((computeAccuracy_lt_iff_correctCount_lt _ _ u).mpr hcnt) (not_lt.mpr h)
  · intro h
    rw [Prune]
    rw [if_pos ((computeAccuracy_lt_iff_correctCount_lt _ _ u).mp h)]

/-- Witness for `prune_keeps_collapsed_unless_worse`: on `c5Inst` the
collapsed form of `c5Tree` is at least as accurate as the children-attached
baseline, so the collapse is kept. -/
theorem prune_keeps_collapsed_unless_worse_witness :
    Prune id (.mk .RuleNode (some (.cons "m" c5Mid .nil)) (some 1)
        [("0", 1), ("1", 2)] "1" 0) c5Inst =
      .mk .RuleNode none (some 1) [("0", 1), ("1", 2)] "1" 0 := by
  refine (prune_keeps_collapsed_unless_worse id c5Inst .RuleNode
    (.cons "m" c5Mid .nil) 1 [("0", 1), ("1", 2)] "1" 0).1 ?_
  have h1 : correctCount (Predict id (.mk .RuleNode
      (some (pruneChildren id (decompose c5Inst 1) (.cons "m" c5Mid .nil)))
      (some 1) [("0", 1), ("1", 2)] "1" 0) c5Inst) c5Inst = 1 := by decide
  have h2 : correctCount (Predict id (.mk .RuleNode none (some 1)
      [("0", 1), ("1", 2)] "1" 0) c5Inst) c5Inst = 2 := by decide
  rw [computeAccuracy, computeAccuracy, h1, h2]
  have h3 : c5Inst.rows.length = 3 := by decide
  rw [h3]
  norm_num

/-! ### Claim C9 -/

mutual
theorem frameOK_refl : ∀ d : DecisionTreeNode, frameOK d d
  | .mk _ c _ _ _ _ => ⟨rfl, rfl, rfl, rfl, rfl, frameChildrenOpt_refl c⟩

theorem frameChildrenOpt_refl : ∀ c : Option ChildList, frameChildrenOpt c c
  | none => trivial
  | some cl => frameChildren_refl cl

theorem frameChildren_refl : ∀ cl : ChildList, frameChildren cl cl
  | .nil => trivial
  | .cons _ c rest => ⟨rfl, frameOK_refl c, frameChildren_refl rest⟩
end

mutual
theorem prune_frame_node (ord : List String → List String) :
    ∀ (d : DecisionTreeNode) (u : Instances), frameOK d (Prune ord d u)
  | .mk t none s dist cls ca, u => frameOK_refl _
  | .mk t (some cl) s dist cls ca, u => by
      rw [Prune.eq_def]
      cases s with
      | none => exact ⟨rfl, rfl, rfl, rfl, rfl, frameChildrenOpt_refl _⟩
      | some a =>
          dsimp only
          by_cases hc : correctCount (Predict ord (.mk t none (some a) dist cls ca) u) u <
              correctCount (Predict ord (.mk t
                (some (pruneChildren ord (decompose u a) cl)) (some a) dist cls ca) u) u
          · rw [if_pos hc]
            exact ⟨rfl, rfl, rfl, rfl, rfl, prune_frame_children ord (decompose u a) cl⟩
          · rw [if_neg hc]
            exact ⟨rfl, rfl, rfl, rfl, rfl, trivial⟩

theorem prune_frame_children (ord : List String → List String) :
    ∀ (sub : List (String × Instances)) (cl : ChildList),
      frameChildren cl (pruneChildren ord sub cl)
  | _, .nil => trivial
  | sub, .cons k c rest => by
      rw [pruneChildren.eq_def]
      dsimp only
      cases h : listLookup sub k with
      | none => exact ⟨rfl, frameOK_refl c, prune_frame_children ord sub rest⟩
      | some inst => exact ⟨rfl, prune_frame_node ord c inst, prune_frame_children ord sub rest⟩
end

/-- Claim C9: `Prune` modifies at most the `Children` field of every node it
visits — `Type`, `SplitAttr`, `ClassDist`, `Class` and `ClassAttr` are
unchanged throughout the tree, and in particular a node whose children are
collapsed away retains its original `SplitAttr`. -/
theorem prune_frame_preservation (ord : List String → List String)
    (d : DecisionTreeNode) (u : Instances) : frameOK d (Prune ord d u) :=
  prune_frame_node ord d u

/-! ### Claim C10 -/

theorem distinctVals_ne_nil (a : Attr) (rows : List Row) (h : rows ≠ []) :
    distinctVals a rows ≠ [] := by
  cases rows with
  | nil => exact absurd rfl h
  | cons r rest =>
      intro hd
      have := mem_distinctVals a (r :: rest) [] r (List.mem_cons_self _ _)
      rw [show (r :: rest).foldl
          (fun acc r => if (r a) ∈ acc then acc else acc ++ [r a]) [] =
            distinctVals a (r :: rest) from rfl, hd] at this
      exact absurd this (List.not_mem_nil _)

theorem decompose_rows_ne_nil (inst : Instances) (a : Attr) :
    ∀ p ∈ decompose inst a, p.2.rows ≠ [] := by
  intro p hp
  rw [decompose] at hp
  obtain ⟨v, hv, hveq⟩ := List.mem_map.mp hp
  obtain ⟨r, hr, hra⟩ := exists_row_of_mem_distinctVals a inst.rows v hv
  rw [← hveq]
  intro hnil
  have : r ∈ inst.rows.filter (fun r => r a = v) :=
    List.mem_filter.mpr ⟨hr, by simp [hra]⟩
  rw [show (⟨inst.attrs.erase a, inst.classAttr,
      inst.rows.filter (fun r => r a = v)⟩ : Instances).rows =
        inst.rows.filter (fun r => r a = v) from rfl] at hnil
  rw [hnil] at this
  exact absurd this (List.not_mem_nil _)

theorem wfList_toChildList : ∀ (l : List (String × DecisionTreeNode)),
    (∀ p ∈ l, wfChildren p.2 = true) → wfList (toChildList l) = true
  | [], _ => rfl
  | (k, c) :: rest, h => by
      rw [toChildList, wfList, Bool.and_eq_true]
      exact ⟨h (k, c) (List.mem_cons_self _ _),
        wfList_toChildList rest (fun p hp => h p (List.mem_cons_of_mem _ hp))⟩

/-- Induction on a non-empty partition yields a tree whose non-`nil`
children maps are all non-empty: decompositions produce only non-empty
groups, one per observed value. -/
theorem inferGo_wf (ord : List String → List String)
    (gen : (inst : Instances) → Option {a : Attr // a ∈ inst.attrs}) :
    ∀ (fuel : Nat) (inst : Instances), inst.rows ≠ [] →
      wfChildren (inferGo ord gen fuel inst) = true
  | 0, _, _ => rfl
  | fuel + 1, inst, hrows => by
      rw [inferGo]
      by_cases h1 : (countClassValues inst).length = 1
      · simp only [h1, if_true]
        rfl
      · simp only [h1, if_false]
        by_cases h2 : inst.attrs.length = 2
        · simp only [h2, if_true]
          rfl
        · simp only [h2, if_false]
          cases hg : gen inst with
          | none => rfl
          | some s =>
              cases s with
              | mk sa hsa =>
                  dsimp only
                  rw [wfChildren, Bool.and_eq_true]
                  constructor
                  · have hd : decompose inst sa ≠ [] := by
                      rw [decompose]
                      intro hnil
                      exact distinctVals_ne_nil sa inst.rows hrows
                        (List.map_eq_nil_iff.mp hnil)
                    cases hdc : decompose inst sa with
                    | nil => exact absurd hdc hd
                    | cons p rest => rw [List.map_cons, toChildList, wfNonEmpty]
                  · refine wfList_toChildList _ ?_
                    intro p hp
                    obtain ⟨q, hq, hqe⟩ := List.mem_map.mp hp
                    rw [← hqe]
                    exact inferGo_wf ord gen fuel q.2 (decompose_rows_ne_nil inst sa q hq)

mutual
theorem predictRow_isSome (attrs : List Attr) (ord : List String → List String)
    (hord : ∀ ks, (ord ks).Perm ks) (row : Row) :
    ∀ d : DecisionTreeNode, wfChildren d = true →
      (predictRow attrs ord row d).isSome = true
  | .mk t none s dist cls ca, _ => rfl
  | .mk t (some cl) s dist cls ca, hwf => by
      rw [predictRow.eq_def]
      cases s with
      | none => rfl
      | some a =>
          dsimp only
          rw [wfChildren, Bool.and_eq_true] at hwf
          obtain ⟨hne, hlist⟩ := hwf
          have hkeys : childKeys cl ≠ [] := by
            cases cl with
            | nil => exact absurd hne (by rw [wfNonEmpty]; simp)
            | cons k c rest => rw [childKeys]; simp
          by_cases hmem : a ∈ attrs
          · simp only [hmem, if_true]
            by_cases hhit : (childAt cl (row a)).isSome = true
            · rw [if_pos hhit]
              exact findPredict_isSome attrs ord hord row cl (row a) hlist
                ((childAt_isSome_iff cl (row a)).mp hhit)
            · rw [if_neg hhit]
              have hone : ord (childKeys cl) ≠ [] := by
                intro h
                exact hkeys (List.Perm.eq_nil ((hord (childKeys cl)).symm.trans
                  (h ▸ List.Perm.refl _)))
              refine findPredict_isSome attrs ord hord row cl _ hlist ?_
              exact (hord (childKeys cl)).mem_iff.mp
                (bestChildLoop_mem (row a) (ord (childKeys cl)) "" hone)
          · simp only [hmem, if_false]
            rfl

theorem findPredict_isSome (attrs : List Attr) (ord : List String → List String)
    (hord : ∀ ks, (ord ks).Perm ks) (row : Row) :
    ∀ (cl : ChildList) (tkey : String), wfList cl = true → tkey ∈ childKeys cl →
      (findPredict attrs ord row cl tkey).isSome = true
  | .nil, tkey, _, hmem => absurd (childKeys.eq_1 ▸ hmem) (List.not_mem_nil _)
  | .cons k c rest, tkey, hwf, hmem => by
      rw [findPredict]
      rw [wfList, Bool.and_eq_true] at hwf
      by_cases hk : k = tkey
      · rw [if_pos hk]
        exact predictRow_isSome attrs ord hord row c hwf.1
      · rw [if_neg hk]
        refine findPredict_isSome attrs ord hord row rest tkey hwf.2 ?_
        rw [childKeys] at hmem
        rcases List.mem_cons.mp hmem with h | h
        · exact absurd h.symm hk
        · exact h
end

/-- Claim C10: prediction on a tree produced by `InferID3Tree` from a
non-empty partition always terminates with exactly one emitted label per
input row — every Rule node with a non-`nil` children map has at least one
child (decompositions yield only non-empty groups), so each per-row
traversal reaches a label instead of the empty-map panic, and the output has
one entry per row in row order.  (In the embedding the traversal is a
structurally recursive function, so each descent chain is finite by
construction; `isSome` rules out the panic.) -/
theorem predict_total_on_inferred_trees (ord : List String → List String)
    (gen : (inst : Instances) → Option {a : Attr // a ∈ inst.attrs})
    (inst : Instances)
    (hord : ∀ ks, (ord ks).Perm ks) (hrows : inst.rows ≠ []) :
    wfChildren (InferID3Tree ord gen inst) = true ∧
    (∀ (what : Instances) (row : Row),
      (predictRow what.attrs ord row (InferID3Tree ord gen inst)).isSome = true) ∧
    (∀ what : Instances,
      (Predict ord (InferID3Tree ord gen inst) what).length = what.rows.length) := by
  have hwf := inferGo_wf ord gen (inst.attrs.length + 1) inst hrows
  exact ⟨hwf, fun what row => predictRow_isSome what.attrs ord hord row _ hwf,
    fun what => by rw [Predict, List.length_map]⟩

/-- Witness for `predict_total_on_inferred_trees` at the `c2Inst` fixture. -/
theorem predict_total_on_inferred_trees_witness :
    wfChildren (InferID3Tree id genNone c2Inst) = true ∧
    (∀ (what : Instances) (row : Row),
      (predictRow what.attrs id row (InferID3Tree id genNone c2Inst)).isSome = true) ∧
    (∀ what : Instances,
      (Predict id (InferID3Tree id genNone c2Inst) what).length = what.rows.length) :=
  predict_total_on_inferred_trees id genNone c2Inst
    (fun ks => List.Perm.refl ks) (by simp [c2Inst])

/-! ### Claim C5 -/

/-- Claim C5 is false on the code: pruning `c5Tree` against `c5Inst` lowers
the accuracy on those very validation rows from 1 to 2/3.  Two of the rows
carry the unseen split value "a" and are fallback-routed through the child
"m"; Prune never routes them to that child, collapses it on the strength of
the one matching row, and the fallback rows lose their correct labels. -/
theorem prune_accuracy_counterexample :
    computeAccuracy (Predict id (Prune id c5Tree c5Inst) c5Inst) c5Inst <
      computeAccuracy (Predict id c5Tree c5Inst) c5Inst := by
  have h1 : correctCount (Predict id c5Tree c5Inst) c5Inst = 3 := by decide
  have h2 : correctCount (Predict id (Prune id c5Tree c5Inst) c5Inst) c5Inst = 2 := by
    decide
  have h3 : c5Inst.rows.length = 3 := by decide
  rw [computeAccuracy, computeAccuracy, h1, h2, h3]
  norm_num

theorem countP_zip_map (g : Row → String) :
    ∀ (rows : List Row) (f : Row → Option String),
      ((rows.map f).zip rows).countP (fun p => p.1 = some (g p.2)) =
        rows.countP (fun r => f r = some (g r))
  | [], _ => rfl
  | r :: rest, f => by
      rw [List.map_cons, List.zip_cons_cons, List.countP_cons, List.countP_cons,
        countP_zip_map g rest f]

/-- `computeAccuracy`'s numerator, reorganised per input row. -/
theorem correctCount_predict (ord : List String → List String)
    (d : DecisionTreeNode) (u : Instances) :
    correctCount (Predict ord d u) u =
      u.rows.countP (fun r => predictRow u.attrs ord r d = some (r u.classAttr)) := by
  rw [correctCount, Predict]
  exact countP_zip_map (fun r => r u.classAttr) u.rows _

theorem countP_filter_split {α : Type} (P Q : α → Bool) :
    ∀ l : List α,
      l.countP P = (l.filter Q).countP P + (l.filter (fun x => !(Q x))).countP P
  | [] => rfl
  | x :: rest => by
      rw [List.countP_cons, List.filter_cons, List.filter_cons]
      cases hq : Q x
      · simp only [hq, Bool.false_eq_true, if_false, Bool.not_false, if_true]
        rw [List.countP_cons, countP_filter_split P Q rest]
        omega
      · simp only [hq, if_true, Bool.not_true, Bool.false_eq_true, if_false]
        rw [List.countP_cons, countP_filter_split P Q rest]
        omega

theorem countP_groups (a : Attr) (P : Row → Bool) :
    ∀ (vs : List String) (rows : List Row), vs.Nodup →
      (∀ r ∈ rows, r a ∈ vs) →
      (vs.map (fun v => (rows.filter (fun r => r a = v)).countP P)).sum =
        rows.countP P
  | [], rows, _, hcov => by
      have hnil : rows = [] :=
        List.eq_nil_iff_forall_not_mem.mpr
          (fun r hr => absurd (hcov r hr) (List.not_mem_nil _))
      rw [hnil]
      rfl
  | v :: vs2, rows, hnd, hcov => by
      rw [List.map_cons, List.sum_cons]
      obtain ⟨hv, hnd2⟩ := List.nodup_cons.mp hnd
      have htail : vs2.map (fun w => (rows.filter (fun r => r a = w)).countP P) =
          vs2.map (fun w =>
            ((rows.filter (fun r => !(decide (r a = v)))).filter
              (fun r => r a = w)).countP P) := by
        refine List.map_congr_left ?_
        intro w hw
        congr 1
        rw [List.filter_filter]
        refine List.filter_congr ?_
        intro r _
        cases hrw : decide (r a = w)
        · simp [hrw]
        · have hraw : r a = w := of_decide_eq_true hrw
          have hvne : decide (r a = v) = false := by
            refine decide_eq_false ?_
            intro hrv
            exact hv (hrv ▸ hraw ▸ hw)
          simp [hrw, hvne]
      rw [htail,
        countP_groups a P vs2 (rows.filter (fun r => !(decide (r a = v)))) hnd2
          (fun r hr => by
            obtain ⟨hrr, hrv⟩ := List.mem_filter.mp hr
            rcases List.mem_cons.mp (hcov r hrr) with h | h
            · exact absurd (decide_eq_true h) (by simpa using hrv)
            · exact h)]
      exact (countP_filter_split P (fun r => decide (r a = v)) rows).symm

theorem listLookup_map_self {α : Type} (g : String → α) :
    ∀ (vs : List String) (k : String), k ∈ vs →
      listLookup (vs.map (fun v => (v, g v))) k = some (g k)
  | [], k, h => absurd h (List.not_mem_nil _)
  | v :: rest, k, h => by
      rw [List.map_cons, listLookup]
      by_cases hv : v = k
      · rw [if_pos hv, hv]
      · rw [if_neg hv]
        refine listLookup_map_self g rest k ?_
        rcases List.mem_cons.mp h with h2 | h2
        · exact absurd h2.symm hv
        · exact h2

theorem decompose_lookup (inst : Instances) (a : Attr) (v : String)
    (hv : v ∈ distinctVals a inst.rows) :
    listLookup (decompose inst a) v =
      some ⟨inst.attrs.erase a, inst.classAttr,
        inst.rows.filter (fun r => r a = v)⟩ := by
  rw [decompose]
  exact listLookup_map_self _ _ v hv

theorem decompose_lookup_none (inst : Instances) (a : Attr) (v : String)
    (h : listLookup (decompose inst a) v = none) :
    inst.rows.filter (fun r => r a = v) = [] := by
  have hnv : v ∉ distinctVals a inst.rows := by
    intro hv
    rw [decompose_lookup inst a v hv] at h
    cases h
  refine List.eq_nil_iff_forall_not_mem.mpr ?_
  intro r hr
  obtain ⟨hrr, hra⟩ := List.mem_filter.mp hr
  refine hnv ?_
  have := mem_distinctVals a inst.rows [] r hrr
  rw [show inst.rows.foldl
      (fun acc r => if (r a) ∈ acc then acc else acc ++ [r a]) [] =
        distinctVals a inst.rows from rfl] at this
  exact (of_decide_eq_true hra) ▸ this

theorem childAt_pruneChildren (ord : List String → List String)
    (sub : List (String × Instances)) :
    ∀ (cl : ChildList) (k : String),
      childAt (pruneChildren ord sub cl) k =
        (childAt cl k).map (fun c =>
          match listLookup sub k with
          | some i => Prune ord c i
          | none => c)
  | .nil, k => rfl
  | .cons key c rest, k => by
      rw [pruneChildren.eq_def]
      dsimp only
      cases hl : listLookup sub key with
      | none =>
          rw [childAt, childAt]
          by_cases hk : key = k
          · subst hk
            rw [if_pos rfl, if_pos rfl, hl]
            rfl
          · rw [if_neg hk, if_neg hk]
            exact childAt_pruneChildren ord sub rest k
      | some i =>
          rw [childAt, childAt]
          by_cases hk : key = k
          · subst hk
            rw [if_pos rfl, if_pos rfl, hl]
            rfl
          · rw [if_neg hk, if_neg hk]
            exact childAt_pruneChildren ord sub rest k

theorem predictRow_matched (attrs : List Attr) (ord : List String → List String)
    (row : Row) (t : NodeType) (cl : ChildList) (a : Attr)
    (dist : List (String × Nat)) (cls : String) (ca : Attr)
    (c : DecisionTreeNode)
    (ha : a ∈ attrs) (hc : childAt cl (row a) = some c) :
    predictRow attrs ord row (.mk t (some cl) (some a) dist cls ca) =
      predictRow attrs ord row c := by
  rw [predictRow.eq_def]
  dsimp only
  simp only [ha, if_true]
  rw [if_pos (by rw [hc]; rfl)]
  rw [findPredict_eq, hc]

theorem congruentB_node_spec (t : NodeType) (cl : ChildList) (a : Attr)
    (dist : List (String × Nat)) (cls : String) (ca : Attr)
    (attrs : List Attr) (rows : List Row)
    (h : congruentB (.mk t (some cl) (some a) dist cls ca) attrs rows = true) :
    a ∈ attrs ∧ (∀ r ∈ rows, (childAt cl (r a)).isSome = true) ∧
      congruentChildrenB cl (attrs.erase a) a rows = true := by
  rw [congruentB.eq_def] at h
  dsimp only at h
  rw [Bool.and_eq_true, Bool.and_eq_true] at h
  exact ⟨of_decide_eq_true h.1.1, fun r hr => List.all_eq_true.mp h.1.2 r hr, h.2⟩

theorem congruentB_node_intro (t : NodeType) (cl : ChildList) (a : Attr)
    (dist : List (String × Nat)) (cls : String) (ca : Attr)
    (attrs : List Attr) (rows : List Row)
    (ha : a ∈ attrs) (hmatch : ∀ r ∈ rows, (childAt cl (r a)).isSome = true)
    (hch : congruentChildrenB cl (attrs.erase a) a rows = true) :
    congruentB (.mk t (some cl) (some a) dist cls ca) attrs rows = true := by
  rw [congruentB.eq_def]
  dsimp only
  rw [Bool.and_eq_true, Bool.and_eq_true]
  exact ⟨⟨decide_eq_true ha, List.all_eq_true.mpr hmatch⟩, hch⟩

theorem congruentChildren_extract :
    ∀ (cl : ChildList) (attrs : List Attr) (a : Attr) (rows : List Row),
      congruentChildrenB cl attrs a rows = true →
      ∀ (k : String) (c : DecisionTreeNode), childAt cl k = some c →
        congruentB c attrs (rows.filter (fun r => r a = k)) = true
  | .nil, _, _, _, _, k, c, hc => by rw [childAt] at hc; cases hc
  | .cons key child rest, attrs, a, rows, hcong, k, c, hc => by
      rw [congruentChildrenB, Bool.and_eq_true] at hcong
      rw [childAt] at hc
      by_cases hk : key = k
      · rw [if_pos hk] at hc
        cases hc
        subst hk
        exact hcong.1
      · rw [if_neg hk] at hc
        exact congruentChildren_extract rest attrs a rows hcong.2 k c hc

mutual
/-- Under congruent routing the traversal never consults attributes outside
the congruence schema, so enlarging the schema cannot change it. -/
theorem predictRow_attrs_congr (ord : List String → List String) :
    ∀ (d : DecisionTreeNode) (A : List Attr) (rows : List Row),
      congruentB d A rows = true →
      ∀ (B : List Attr), A ⊆ B → ∀ r ∈ rows,
        predictRow B ord r d = predictRow A ord r d
  | .mk _ none _ _ _ _, _, _, _, _, _, _, _ => by
      rw [predictRow.eq_def, predictRow.eq_def]
  | .mk t (some cl) s dist cls ca, A, rows, hcong, B, hAB, r, hr => by
      cases s with
      | none => rw [predictRow.eq_def, predictRow.eq_def]
      | some a =>
          obtain ⟨ha, hmatch, hch⟩ := congruentB_node_spec t cl a dist cls ca A rows hcong
          obtain ⟨c, hc⟩ := Option.isSome_iff_exists.mp (hmatch r hr)
          rw [predictRow_matched B ord r t cl a dist cls ca c (hAB ha) hc,
              predictRow_matched A ord r t cl a dist cls ca c ha hc]
          have hrf : r ∈ rows.filter (fun r2 => r2 a = r a) :=
            List.mem_filter.mpr ⟨hr, by simp⟩
          have h1 := predictRow_attrs_congr_list ord cl (A.erase a) a rows hch (r a) c hc
            B (fun x hx => hAB (List.erase_subset a A hx)) r hrf
          have h2 := predictRow_attrs_congr_list ord cl (A.erase a) a rows hch (r a) c hc
            A (fun x hx => List.erase_subset a A hx) r hrf
          rw [h1, h2]

theorem predictRow_attrs_congr_list (ord : List String → List String) :
    ∀ (cl : ChildList) (A2 : List Attr) (a : Attr) (rows2 : List Row),
      congruentChildrenB cl A2 a rows2 = true →
      ∀ (k : String) (c : DecisionTreeNode), childAt cl k = some c →
      ∀ (B : List Attr), A2 ⊆ B →
      ∀ r ∈ rows2.filter (fun r2 => r2 a = k),
        predictRow B ord r c = predictRow A2 ord r c
  | .nil, _, _, _, _, k, c, hc, _, _, _, _ => by rw [childAt] at hc; cases hc
  | .cons key child rest, A2, a, rows2, hcong, k, c, hc, B, hAB, r, hr => by
      rw [congruentChildrenB, Bool.and_eq_true] at hcong
      rw [childAt] at hc
      by_cases hk : key = k
      · rw [if_pos hk] at hc
        cases hc
        subst hk
        exact predictRow_attrs_congr ord child A2 _ hcong.1 B hAB r hr
      · rw [if_neg hk] at hc
        exact predictRow_attrs_congr_list ord rest A2 a rows2 hcong.2 k c hc B hAB r hr
end

theorem listLookup_map_eq {α : Type} (g : String → α) :
    ∀ (vs : List String) (k : String) (i : α),
      listLookup (vs.map (fun v => (v, g v))) k = some i → i = g k
  | [], _, _, h => by cases h
  | v :: rest, k, i, h => by
      rw [List.map_cons, listLookup] at h
      by_cases hv : v = k
      · rw [if_pos hv] at h
        cases h
        rw [← hv]
      · rw [if_neg hv] at h
        exact listLookup_map_eq g rest k i h

mutual
/-- Pruning a subtree that routes its validation rows congruently yields a
subtree that still routes them congruently. -/
theorem prune_congruent (ord : List String → List String) :
    ∀ (d : DecisionTreeNode) (inst : Instances),
      congruentB d inst.attrs inst.rows = true →
      congruentB (Prune ord d inst) inst.attrs inst.rows = true
  | .mk _ none _ _ _ _, _, h => h
  | .mk t (some cl) s dist cls ca, inst, h => by
      cases s with
      | none => exact h
      | some a =>
          obtain ⟨ha, hmatch, hch⟩ :=
            congruentB_node_spec t cl a dist cls ca inst.attrs inst.rows h
          rw [Prune.eq_def]
          dsimp only
          by_cases hcmp : correctCount (Predict ord
              (.mk t none (some a) dist cls ca) inst) inst <
            correctCount (Predict ord (.mk t
              (some (pruneChildren ord (decompose inst a) cl))
              (some a) dist cls ca) inst) inst
          · rw [if_pos hcmp]
            refine congruentB_node_intro t _ a dist cls ca inst.attrs inst.rows ha ?_ ?_
            · intro r hr
              rw [childAt_pruneChildren]
              obtain ⟨c, hc⟩ := Option.isSome_iff_exists.mp (hmatch r hr)
              rw [hc]
              rfl
            · exact prune_congruent_children ord cl inst a hch
          · rw [if_neg hcmp]
            rfl

theorem prune_congruent_children (ord : List String → List String) :
    ∀ (cl : ChildList) (inst : Instances) (a : Attr),
      congruentChildrenB cl (inst.attrs.erase a) a inst.rows = true →
      congruentChildrenB (pruneChildren ord (decompose inst a) cl)
        (inst.attrs.erase a) a inst.rows = true
  | .nil, _, _, _ => rfl
  | .cons key child rest, inst, a, h => by
      rw [congruentChildrenB, Bool.and_eq_true] at h
      rw [pruneChildren.eq_def]
      dsimp only
      cases hl : listLookup (decompose inst a) key with
      | none =>
          rw [congruentChildrenB, Bool.and_eq_true]
          exact ⟨h.1, prune_congruent_children ord rest inst a h.2⟩
      | some i =>
          rw [congruentChildrenB, Bool.and_eq_true]
          constructor
          · have hi : i = ⟨inst.attrs.erase a, inst.classAttr,
                inst.rows.filter (fun r => r a = key)⟩ := by
              rw [decompose] at hl
              exact listLookup_map_eq _ _ key i hl
            subst hi
            exact prune_congruent ord child _ h.1
          · exact prune_congruent_children ord rest inst a h.2
end

theorem countP_ext {α : Type} : ∀ (l : List α) (p q : α → Bool),
    (∀ x ∈ l, p x = q x) → l.countP p = l.countP q
  | [], _, _, _ => rfl
  | x :: rest, p, q, h => by
      rw [List.countP_cons, List.countP_cons, h x (List.mem_cons_self _ _),
        countP_ext rest p q (fun y hy => h y (List.mem_cons_of_mem _ hy))]

/-- Under congruent routing, a Rule node's correct-prediction count over a
row set is the sum, over the decomposition groups, of its children's
correct-prediction counts over their groups. -/
theorem correct_sum (ord : List String → List String) (t : NodeType)
    (cl : ChildList) (a : Attr) (dist : List (String × Nat)) (cls : String)
    (ca : Attr) (inst : Instances)
    (ha : a ∈ inst.attrs)
    (hmatch : ∀ r ∈ inst.rows, (childAt cl (r a)).isSome = true)
    (hch : congruentChildrenB cl (inst.attrs.erase a) a inst.rows = true) :
    correctCount (Predict ord (.mk t (some cl) (some a) dist cls ca) inst) inst =
      ((decompose inst a).map (childScore ord cl)).sum := by
  rw [correctCount_predict, decompose, List.map_map]
  rw [← countP_groups a (fun r => decide (predictRow inst.attrs ord r
        (.mk t (some cl) (some a) dist cls ca) = some (r inst.classAttr)))
      (distinctVals a inst.rows) inst.rows (distinctVals_nodup a inst.rows)
      (fun r hr => mem_distinctVals a inst.rows [] r hr)]
  refine congrArg List.sum (List.map_congr_left ?_)
  intro v hv
  obtain ⟨r₀, hr₀, hr₀a⟩ := exists_row_of_mem_distinctVals a inst.rows v hv
  have hsome : (childAt cl v).isSome = true := by
    have h := hmatch r₀ hr₀
    rw [hr₀a] at h
    exact h
  obtain ⟨c, hc⟩ := Option.isSome_iff_exists.mp hsome
  have hcv : congruentB c (inst.attrs.erase a)
      (inst.rows.filter (fun r => r a = v)) = true :=
    congruentChildren_extract cl (inst.attrs.erase a) a inst.rows hch v c hc
  simp only [Function.comp_apply]
  rw [childScore]
  dsimp only
  rw [hc]
  dsimp only
  rw [correctCount_predict]
  refine countP_ext _ _ _ ?_
  intro r hr
  obtain ⟨hrr, hra'⟩ := List.mem_filter.mp hr
  have hra : r a = v := of_decide_eq_true hra'
  have hstep : predictRow inst.attrs ord r (.mk t (some cl) (some a) dist cls ca) =
      predictRow inst.attrs ord r c := by
    refine predictRow_matched inst.attrs ord r t cl a dist cls ca c ha ?_
    rw [hra]
    exact hc
  have hattr : predictRow inst.attrs ord r c =
      predictRow (inst.attrs.erase a) ord r c :=
    predictRow_attrs_congr ord c (inst.attrs.erase a) _ hcv inst.attrs
      (fun x hx => List.erase_subset a inst.attrs hx) r hr
  rw [hstep, hattr]

mutual
/-- Congruently-routed pruning never lowers the correct-prediction count. -/
theorem prune_correct_ge (ord : List String → List String) :
    ∀ (d : DecisionTreeNode) (inst : Instances),
      congruentB d inst.attrs inst.rows = true →
      correctCount (Predict ord d inst) inst ≤
        correctCount (Predict ord (Prune ord d inst) inst) inst
  | .mk _ none _ _ _ _, _, _ => le_refl _
  | .mk t (some cl) s dist cls ca, inst, hcong => by
      cases s with
      | none => exact le_refl _
      | some a =>
          obtain ⟨ha, hmatch, hch⟩ :=
            congruentB_node_spec t cl a dist cls ca inst.attrs inst.rows hcong
          have hmatch1 : ∀ r ∈ inst.rows,
              (childAt (pruneChildren ord (decompose inst a) cl) (r a)).isSome = true := by
            intro r hr
            rw [childAt_pruneChildren]
            obtain ⟨c, hc⟩ := Option.isSome_iff_exists.mp (hmatch r hr)
            rw [hc]
            rfl
          have hch1 := prune_congruent_children ord cl inst a hch
          have hsum := correct_sum ord t cl a dist cls ca inst ha hmatch hch
          have hsum1 := correct_sum ord t (pruneChildren ord (decompose inst a) cl)
            a dist cls ca inst ha hmatch1 hch1
          have hpt : ∀ p ∈ decompose inst a,
              childScore ord cl p ≤
                childScore ord (pruneChildren ord (decompose inst a) cl) p := by
            intro p hp
            have hp' := hp
            rw [decompose] at hp'
            obtain ⟨v, hv, hveq⟩ := List.mem_map.mp hp'
            rw [childScore, childScore, childAt_pruneChildren]
            cases hc : childAt cl p.1 with
            | none => exact le_refl _
            | some c =>
                dsimp only
                have hl : listLookup (decompose inst a) p.1 = some p.2 := by
                  rw [← hveq]
                  exact decompose_lookup inst a v hv
                rw [hl]
                refine prune_correct_ge_list ord cl p.1 c hc p.2 ?_
                have hcv := congruentChildren_extract cl (inst.attrs.erase a) a
                  inst.rows hch p.1 c hc
                rw [← hveq]
                rw [← hveq] at hcv
                exact hcv
          have hmono : ((decompose inst a).map (childScore ord cl)).sum ≤
              ((decompose inst a).map
                (childScore ord (pruneChildren ord (decompose inst a) cl))).sum :=
            List.sum_le_sum hpt
          rw [Prune.eq_def]
          dsimp only
          by_cases hcmp : correctCount (Predict ord
              (.mk t none (some a) dist cls ca) inst) inst <
            correctCount (Predict ord (.mk t
              (some (pruneChildren ord (decompose inst a) cl))
              (some a) dist cls ca) inst) inst
          · rw [if_pos hcmp]
            rw [hsum, hsum1]
            exact hmono
          · rw [if_neg hcmp]
            rw [hsum]
            exact le_trans hmono (le_trans (le_of_eq hsum1.symm) (Nat.le_of_not_lt hcmp))

theorem prune_correct_ge_list (ord : List String → List String) :
    ∀ (cl : ChildList) (k : String) (c : DecisionTreeNode), childAt cl k = some c →
      ∀ (i : Instances), congruentB c i.attrs i.rows = true →
        correctCount (Predict ord c i) i ≤
          correctCount (Predict ord (Prune ord c i) i) i
  | .nil, k, c, hc, _, _ => by rw [childAt] at hc; cases hc
  | .cons key child rest, k, c, hc, i, hcong => by
      rw [childAt] at hc
      by_cases hk : key = k
      · rw [if_pos hk] at hc
        cases hc
        exact prune_correct_ge ord child i hcong
      · rw [if_neg hk] at hc
        exact prune_correct_ge_list ord rest k c hc i hcong
end

/-- Claim C5 (amended): pruning never degrades held-out accuracy **provided
the validation rows are routed congruently** — at every Rule node each row's
split-attribute value matches one of the children and the split attribute is
present in the validation schema (the premise the spec itself states for
pruning in section 4.4).  Without that premise the property fails: the
counterexample shows a validation set with an unseen value whose accuracy
strictly drops from 1 to 2/3 after `Prune`. -/
theorem prune_no_degrade_of_congruent (ord : List String → List String)
    (d : DecisionTreeNode) (u : Instances)
    (hcong : congruentB d u.attrs u.rows = true) :
    computeAccuracy (Predict ord d u) u ≤
      computeAccuracy (Predict ord (Prune ord d u) u) u := by
  have h := prune_correct_ge ord d u hcong
  rw [computeAccuracy, computeAccuracy]
  rcases Nat.eq_zero_or_pos u.rows.length with hn | hn
  · rw [hn]
    simp
  · have hn' : (0 : ℚ) < (u.rows.length : ℚ) := by exact_mod_cast hn
    rw [div_le_div_iff_of_pos_right hn']
    exact_mod_cast h

/-- Witness for `prune_no_degrade_of_congruent` at the congruent validation
set `c5CongInst`. -/
theorem prune_no_degrade_of_congruent_witness :
    computeAccuracy (Predict id c5Tree c5CongInst) c5CongInst ≤
      computeAccuracy (Predict id (Prune id c5Tree c5CongInst) c5CongInst) c5CongInst :=
  prune_no_degrade_of_congruent id c5Tree c5CongInst (by decide)
